import Mathlib

/-!
A verification development for the compressed sparse matrix core of the
`sprs` crate (`src/sparse/csmat.rs`): shallow embedding of the data model
and of the operations (checked view construction, owned construction with
per-slice index sorting, storage conversion by counting sort, insertion,
`set`, `map`, blocked outer iteration), followed by theorems about them.

Machine integers (`usize`) are modelled as `Nat`; buffers as `List`s.
A Rust `panic!`/`assert!`/`.unwrap()` failure is modelled as an explicit
outcome (`CheckResult.panicked`, or `none` for `Option`-returning models).
-/

set_option maxHeartbeats 1000000

namespace Sprs

/-- Describe the storage of a CsMat (`CompressedStorage` in csmat.rs). -/
inductive CompressedStorage
  | CSR
  | CSC
  deriving DecidableEq, Repr

open CompressedStorage

/-- `other_storage`: return CSC if we were CSR, and vice versa. -/
def CompressedStorage.other_storage : CompressedStorage → CompressedStorage
  | CSR => CSC
  | CSC => CSR

/-- `outer_dimension` (csmat.rs lines 51-59). -/
def outer_dimension (storage : CompressedStorage) (rows cols : Nat) : Nat :=
  match storage with
  | CSR => rows
  | CSC => cols

/-- `inner_dimension` (csmat.rs lines 61-69). -/
def inner_dimension (storage : CompressedStorage) (rows cols : Nat) : Nat :=
  match storage with
  | CSR => cols
  | CSC => rows

/-- `usize` is modelled as `Nat`; the structure check compares offsets
against `usize::max_value() / 2` with usize taken 64 bits wide. -/
def usizeMax : Nat := 2 ^ 64 - 1

/-- The error type (errors.rs is not under src/). csmat.rs itself returns
`SprsError::UnsortedIndptr`; the per-slice check of the vector collaborator
returns, per the spec, a not-ascending or an out-of-bounds error. -/
inductive SprsError
  | UnsortedIndptr
  | NonSortedIndices
  | OutOfBoundsIndex
  deriving DecidableEq, Repr

/-- Outcome of a fallible operation that can also abort: `panicked` models
a Rust `panic!`/`assert!`/failed `unwrap`, `error` a returned `Err`. -/
inductive CheckResult (α : Type)
  | panicked
  | error (e : SprsError)
  | ok (a : α)
  deriving DecidableEq, Repr

/-- Rust slice indexing `&l[a..b]`, as a total function (in-bounds at every
use verified below, so the out-of-range clamping is never exercised). -/
def sliceRange (l : List α) (a b : Nat) : List α :=
  (l.drop a).take (b - a)

/-- `Vec::insert(p, x)`: insert at position `p`, shifting the suffix. -/
def listInsertAt (l : List α) (p : Nat) (x : α) : List α :=
  l.take p ++ x :: l.drop p

/-- Overwrite positions `[a, a + repl.length)` of `l` with `repl` (the
in-place mutation of a sub-slice). -/
def writeRange (l : List α) (a : Nat) (repl : List α) : List α :=
  l.take a ++ repl ++ l.drop (a + repl.length)

/-- The `windows(2)` view of a list, as the pairs of consecutive elements. -/
def windowsPairs : List Nat → List (Nat × Nat)
  | a :: b :: t => (a, b) :: windowsPairs (b :: t)
  | _ => []

/-- `l.windows(2).all(|x| r x[0] x[1])`, used for the offset and index
order checks. -/
def monotoneBy (r : Nat → Nat → Bool) : List Nat → Bool
  | a :: b :: t => r a b && monotoneBy r (b :: t)
  | _ => true

/-- A structurally reducing decision procedure for `Chain' R`, so that
concrete instances of the invariants can be evaluated by `decide`. -/
def decChain' {α : Type} (R : α → α → Prop) [DecidableRel R] :
    (l : List α) → Decidable (List.Chain' R l)
  | [] => isTrue List.chain'_nil
  | [a] => isTrue (List.chain'_singleton a)
  | a :: b :: t =>
    match inferInstanceAs (Decidable (R a b)), decChain' R (b :: t) with
    | isTrue h1, isTrue h2 => isTrue (List.chain'_cons.mpr ⟨h1, h2⟩)
    | isFalse h1, _ => isFalse fun hc => h1 (List.chain'_cons.mp hc).1
    | _, isFalse h2 => isFalse fun hc => h2 (List.chain'_cons.mp hc).2

instance (priority := 2000) chainDecInst {α : Type} (R : α → α → Prop)
    [DecidableRel R] (l : List α) : Decidable (List.Chain' R l) :=
  decChain' R l

/-- The compressed matrix (`CsMat` in csmat.rs). Owned matrices and views
share this one model; the three buffers are lists. -/
structure CsMat (N : Type) where
  storage : CompressedStorage
  nrows : Nat
  ncols : Nat
  indptr : List Nat
  indices : List Nat
  data : List N
  deriving DecidableEq, Repr

/-- One outer slice, as a sparse-vector view (the single-outer-slice
collaborator `CsVec` of sparse/vec.rs, which is not under src/; only the
fields the matrix code uses are modelled). -/
structure CsVec (N : Type) where
  dim : Nat
  indices : List Nat
  data : List N
  deriving DecidableEq, Repr

/-- Contract of Rust `slice::binary_search` (standard library, not
repository code): on a slice sorted in the natural order it returns `Ok`
at the position of a matching element, otherwise `Err` at the insertion
point. This closed form agrees with any conforming implementation whenever
the searched slice is sorted without duplicates, which holds at every call
site verified below. -/
def rustBinarySearch (l : List Nat) (x : Nat) : Except Nat Nat :=
  match l.indexOf? x with
  | some i => Except.ok i
  | none => Except.error (l.countP fun y => decide (y < x))

/-- Modelled from the spec: `CsVec::get` of sparse/vec.rs (not under src/):
"binary search within the addressed outer slice", returning the stored
value on a hit. -/
def CsVec.get_ (v : CsVec N) (index : Nat) : Option N :=
  match rustBinarySearch v.indices index with
  | Except.ok i => v.data[i]?
  | Except.error _ => none

/-- Modelled from the spec: `CsVec::nnz_index` of sparse/vec.rs (not under
src/): logarithmic lookup of the position of the nonzero inside this slice.
The position is relative to the slice: `nnz_index_outer_inner` in csmat.rs
adds `indptr[outer]` to it before using it on the full buffer. -/
def CsVec.nnz_index (v : CsVec N) (index : Nat) : Option Nat :=
  match rustBinarySearch v.indices index with
  | Except.ok i => some i
  | Except.error _ => none

/-- Modelled from the spec: the structural check of the single-outer-slice
collaborator: "each per-slice index run strictly ascending and within
[0, inner_dim) (else NonSortedIndices / OutOfBounds)". `none` = no
violation found. -/
def CsVec.check_structure (v : CsVec N) : Option SprsError :=
  if monotoneBy (fun a b => decide (a < b)) v.indices then
    if v.indices.all (fun i => decide (i < v.dim)) then none
    else some SprsError.OutOfBoundsIndex
  else some SprsError.NonSortedIndices

/-- The (index, value) pairs of one slice, in storage order. -/
def CsVec.iter (v : CsVec N) : List (Nat × N) :=
  v.indices.zip v.data

/-- `outer_dims`: rows for CSR, cols for CSC. -/
def CsMat.outer_dims (m : CsMat N) : Nat :=
  outer_dimension m.storage m.nrows m.ncols

/-- `inner_dims`: cols for CSR, rows for CSC. -/
def CsMat.inner_dims (m : CsMat N) : Nat :=
  inner_dimension m.storage m.nrows m.ncols

/-- `nnz()` is `self.indptr.last().unwrap()`; the offsets are nonempty in
every use verified below, so the `unwrap` never fails there. -/
def CsMat.nnz (m : CsMat N) : Nat :=
  m.indptr.getLast?.getD 0

def CsMat.rows (m : CsMat N) : Nat := m.nrows

def CsMat.cols (m : CsMat N) : Nat := m.ncols

def CsMat.shape (m : CsMat N) : Nat × Nat := (m.nrows, m.ncols)

/-- `outer_view(i)` (csmat.rs lines 779-792). -/
def CsMat.outer_view (m : CsMat N) (i : Nat) : Option (CsVec N) :=
  if i < m.outer_dims then
    some ⟨m.inner_dims,
          sliceRange m.indices (m.indptr.getD i 0) (m.indptr.getD (i + 1) 0),
          sliceRange m.data (m.indptr.getD i 0) (m.indptr.getD (i + 1) 0)⟩
  else none

/-- The sequence of slice views yielded by `outer_iterator()`
(csmat.rs lines 113-141): one `CsVec` per window of `indptr`. -/
def CsMat.outerVecs (m : CsMat N) : List (CsVec N) :=
  (windowsPairs m.indptr).map fun w =>
    ⟨inner_dimension m.storage m.nrows m.ncols,
     sliceRange m.indices w.1 w.2, sliceRange m.data w.1 w.2⟩

/-- Flattening of `outer_iterator().enumerate()` starting at index `o`. -/
def entriesFrom (o : Nat) : List (CsVec N) → List (Nat × Nat × N)
  | [] => []
  | v :: vs => (v.iter.map fun p => (o, p.1, p.2)) ++ entriesFrom (o + 1) vs

/-- The (outer, inner, value) triples of the stored nonzeros, in storage
order. -/
def CsMat.entriesOI (m : CsMat N) : List (Nat × Nat × N) :=
  entriesFrom 0 m.outerVecs

/-- The (row, col, value) triples of the stored nonzeros. -/
def CsMat.entriesRC (m : CsMat N) : List (Nat × Nat × N) :=
  m.entriesOI.map fun e =>
    match m.storage with
    | CSR => e
    | CSC => (e.2.1, e.1, e.2.2)

/-- `get_outer_inner` (csmat.rs lines 915-920). -/
def CsMat.get_outer_inner (m : CsMat N) (outer_ind inner_ind : Nat) : Option N :=
  (m.outer_view outer_ind).bind fun vec => vec.get_ inner_ind

/-- `get(i, j)` (csmat.rs lines 771-776). -/
def CsMat.get (m : CsMat N) (i j : Nat) : Option N :=
  match m.storage with
  | CSR => m.get_outer_inner i j
  | CSC => m.get_outer_inner j i

/-- `check_compressed_structure` (csmat.rs lines 962-1002). The length,
nnz-mismatch and offset-bound violations `panic!`; only unsorted offsets
and the per-slice violations are returned as typed errors. -/
def CsMat.check_compressed_structure (m : CsMat N) : CheckResult Unit :=
  if m.indptr.length ≠ m.outer_dims + 1 then CheckResult.panicked
  else if m.indices.length ≠ m.data.length then CheckResult.panicked
  else if m.indices.length ≠ m.nnz then CheckResult.panicked
  else if m.indptr.foldr max 0 > m.indices.length then CheckResult.panicked
  else if m.indptr.foldr max 0 > usizeMax / 2 then CheckResult.panicked
  else if ¬ monotoneBy (fun a b => decide (a ≤ b)) m.indptr then
    CheckResult.error SprsError.UnsortedIndptr
  else
    match m.outerVecs.findSome? CsVec.check_structure with
    | some e => CheckResult.error e
    | none => CheckResult.ok ()

/-- `new_view` (csmat.rs lines 278-292): assemble the view, run the full
structure check, return the view on success. -/
def CsMat.new_view (storage : CompressedStorage) (shape : Nat × Nat)
    (indptr indices : List Nat) (data : List N) : CheckResult (CsMat N) :=
  let m : CsMat N := ⟨storage, shape.1, shape.2, indptr, indices, data⟩
  match m.check_compressed_structure with
  | CheckResult.panicked => CheckResult.panicked
  | CheckResult.error e => CheckResult.error e
  | CheckResult.ok _ => CheckResult.ok m

/-- Modelled from the spec: `utils::sort_indices_data_slices`
(sparse/utils.rs, not under src/): stable sort of one slice's indices,
co-permuting the values through a scratch buffer. -/
def sort_indices_data_slices (indices : List Nat) (data : List N) :
    List Nat × List N :=
  let ps := (indices.zip data).mergeSort fun a b => decide (a.1 ≤ b.1)
  (ps.map Prod.fst, ps.map Prod.snd)

/-- One iteration of the `sort_indices` loop: sort the sub-slice
`[start, stop)` of the index buffer in place, co-permuting the values. -/
def sortStep (st : List Nat × List N) (w : Nat × Nat) : List Nat × List N :=
  let si := sort_indices_data_slices
    (sliceRange st.1 w.1 w.2) (sliceRange st.2 w.1 w.2)
  (writeRange st.1 w.1 si.1, writeRange st.2 w.1 si.2)

/-- `sort_indices` (csmat.rs lines 480-494): for every window of the
offsets, sort that sub-slice of the indices, co-permuting the values. -/
def CsMat.sort_indices (m : CsMat N) : CsMat N :=
  let st := (windowsPairs m.indptr).foldl sortStep (m.indices, m.data)
  { m with indices := st.1, data := st.2 }

/-- `new_` (csmat.rs lines 460-478): sort the indices in place, then run
the full structure check. -/
def CsMat.new_ (storage : CompressedStorage) (shape : Nat × Nat)
    (indptr indices : List Nat) (data : List N) : CheckResult (CsMat N) :=
  let m : CsMat N := ⟨storage, shape.1, shape.2, indptr, indices, data⟩
  let msorted := m.sort_indices
  match msorted.check_compressed_structure with
  | CheckResult.panicked => CheckResult.panicked
  | CheckResult.error e => CheckResult.error e
  | CheckResult.ok _ => CheckResult.ok msorted

/-- `new` (csmat.rs lines 421-429): CSR owned construction; the `unwrap`
turns any validation error into a panic. -/
def CsMat.new (shape : Nat × Nat) (indptr indices : List Nat)
    (data : List N) : CheckResult (CsMat N) :=
  match CsMat.new_ CSR shape indptr indices data with
  | CheckResult.ok m => CheckResult.ok m
  | _ => CheckResult.panicked

/-- `new_csc` (csmat.rs lines 450-458). -/
def CsMat.new_csc (shape : Nat × Nat) (indptr indices : List Nat)
    (data : List N) : CheckResult (CsMat N) :=
  match CsMat.new_ CSC shape indptr indices data with
  | CheckResult.ok m => CheckResult.ok m
  | _ => CheckResult.panicked

/-- `set_outer_dims` (csmat.rs lines 594-599). -/
def CsMat.set_outer_dims (m : CsMat N) (outer_dims : Nat) : CsMat N :=
  match m.storage with
  | CSR => { m with nrows := outer_dims }
  | CSC => { m with ncols := outer_dims }

/-- `set_inner_dims` (csmat.rs lines 601-606). -/
def CsMat.set_inner_dims (m : CsMat N) (inner_dims : Nat) : CsMat N :=
  match m.storage with
  | CSR => { m with ncols := inner_dims }
  | CSC => { m with nrows := inner_dims }

/-- `insert_outer_inner` (csmat.rs lines 549-592). The `Ok` arm of the
binary search returns early and therefore skips the inner-dimension
update; the other arms fall through to it. -/
def CsMat.insert_outer_inner (m : CsMat N) (outer_ind inner_ind : Nat)
    (val : N) : CsMat N :=
  let outer_dims := m.outer_dims
  if outer_ind ≥ outer_dims then
    let last_nnz := m.indptr.getLast?.getD 0
    let m1 := { m with
      indptr := m.indptr ++ List.replicate (outer_ind - outer_dims) last_nnz }
    let m2 := m1.set_outer_dims (outer_ind + 1)
    let m3 := { m2 with
      indptr := m2.indptr ++ [last_nnz + 1],
      indices := m2.indices ++ [inner_ind],
      data := m2.data ++ [val] }
    if inner_ind ≥ m3.inner_dims then m3.set_inner_dims (inner_ind + 1) else m3
  else
    let start := m.indptr.getD outer_ind 0
    let stop := m.indptr.getD (outer_ind + 1) 0
    match rustBinarySearch (sliceRange m.indices start stop) inner_ind with
    | Except.ok ind => { m with data := m.data.set (start + ind) val }
    | Except.error ind =>
      let ind := start + ind
      let m3 := { m with
        indices := listInsertAt m.indices ind inner_ind,
        data := listInsertAt m.data ind val,
        indptr := m.indptr.mapIdx fun k x =>
          if outer_ind + 1 ≤ k ∧ k < outer_dims + 1 then x + 1 else x }
      if inner_ind ≥ m3.inner_dims then m3.set_inner_dims (inner_ind + 1) else m3

/-- `insert` (csmat.rs lines 542-547). -/
def CsMat.insert (m : CsMat N) (row col : Nat) (val : N) : CsMat N :=
  match m.storage with
  | CSR => m.insert_outer_inner row col val
  | CSC => m.insert_outer_inner col row val

/-- `set` (csmat.rs lines 1154-1161): `none` models the panic of the
`unwrap` when no nonzero is stored at the location. Note that the
slice-relative position delivered by `CsVec::nnz_index` is used directly
to index the full data buffer. -/
def CsMat.set (m : CsMat N) (row col : Nat) (val : N) : Option (CsMat N) :=
  let outer := outer_dimension m.storage row col
  let inner := inner_dimension m.storage row col
  match (m.outer_view outer).bind fun vec => vec.nnz_index inner with
  | none => none
  | some index => some { m with data := m.data.set index val }

/-- `to_owned` (csmat.rs lines 886-897): a deep copy; buffers are values
in this model. -/
def CsMat.to_owned (m : CsMat N) : CsMat N := m

/-- `map_inplace` (csmat.rs lines 1164-1170). -/
def CsMat.map_inplace (m : CsMat N) (f : N → N) : CsMat N :=
  { m with data := m.data.map f }

/-- `map` (csmat.rs lines 899-906). -/
def CsMat.map (m : CsMat N) (f : N → N) : CsMat N :=
  m.to_owned.map_inplace f

/-- The exclusive prefix-sum loop of `convert_mat_storage`:
`tmp = *iptr; *iptr = cumsum; cumsum += tmp`. -/
def exclScan (c : Nat) : List Nat → List Nat
  | [] => []
  | x :: xs => c :: exclScan (c + x) xs

/-- The offset-correction loop of `convert_mat_storage`:
`last = 0; for iptr { swap(iptr, &mut last) }`. -/
def shiftBackOffsets : List Nat → List Nat
  | [] => []
  | x :: xs => 0 :: (x :: xs).dropLast

/-- `raw::convert_mat_storage` (csmat.rs lines 1234-1273). `none` models a
failed `assert!`/`assert_eq!`. The histogram and scatter loops both walk
the nonzeros in storage order of the input. -/
def convert_mat_storage (mat : CsMat N) (indptr indices : List Nat)
    (data : List N) : Option (List Nat × List Nat × List N) :=
  if indptr.length ≠ mat.inner_dims + 1 then none
  else if indices.length ≠ mat.indices.length then none
  else if data.length ≠ mat.data.length then none
  else if ¬ indptr.all (fun x => decide (x = 0)) then none
  else
    let hist := mat.entriesOI.foldl
      (fun ip e => ip.set e.2.1 (ip.getD e.2.1 0 + 1)) indptr
    let scanned := exclScan 0 hist
    if scanned.getLast?.getD mat.nnz ≠ mat.nnz then none
    else
      let st := mat.entriesOI.foldl
        (fun (st : List Nat × List Nat × List N) e =>
          let dest := st.1.getD e.2.1 0
          (st.1.set e.2.1 (dest + 1), st.2.1.set dest e.1, st.2.2.set dest e.2.2))
        (scanned, indices, data)
      some (shiftBackOffsets st.1, st.2.1, st.2.2)

/-- `to_other_storage` (csmat.rs lines 1034-1050). `N::default()` is
modelled by the `Inhabited` default; every cell of the value buffer is
overwritten before it is ever read. -/
def CsMat.to_other_storage [Inhabited N] (m : CsMat N) : Option (CsMat N) :=
  (convert_mat_storage m (List.replicate (m.inner_dims + 1) 0)
      (List.replicate m.nnz 0) (List.replicate m.nnz default)).map
    fun r => ⟨m.storage.other_storage, m.nrows, m.ncols, r.1, r.2.1, r.2.2⟩

/-- `middle_outer_views` (csmat.rs lines 326-344). `none` models the two
panics (`Empty view`, `Out of bounds index`); the shape of the sub-view is
built as in the source: `nrows = count`, `ncols = self.cols()` regardless
of the storage mode. -/
def CsMat.middle_outer_views (m : CsMat N) (i count : Nat) :
    Option (CsMat N) :=
  if count = 0 then none
  else
    let iend := i + count
    if i ≥ m.outer_dims ∨ iend > m.outer_dims then none
    else some ⟨m.storage, count, m.ncols,
               sliceRange m.indptr i (iend + 1), m.indices, m.data⟩

/-- `ChunkOuterBlocks` (csmat.rs lines 1560-1566). -/
structure ChunkOuterBlocks (N : Type) where
  mat : CsMat N
  dims_in_bloc : Nat
  bloc_count : Nat
  deriving DecidableEq, Repr

/-- `outer_block_iter` (csmat.rs lines 795-810). -/
def CsMat.outer_block_iter (m : CsMat N) (block_size : Nat) :
    ChunkOuterBlocks N :=
  ⟨m, block_size, 0⟩

/-- One step of an iterator that can also abort. -/
inductive IterStep (α σ : Type)
  | done
  | panicked
  | yielded (a : α) (s : σ)
  deriving DecidableEq, Repr

/-- `ChunkOuterBlocks::next` (csmat.rs lines 1568-1588). -/
def ChunkOuterBlocks.next (s : ChunkOuterBlocks N) :
    IterStep (CsMat N) (ChunkOuterBlocks N) :=
  let cur_dim := s.dims_in_bloc * s.bloc_count
  let end_dim := s.dims_in_bloc + cur_dim
  if s.dims_in_bloc = 0 then IterStep.done
  else if end_dim > s.mat.outer_dims then
    let count := s.mat.outer_dims - cur_dim
    match s.mat.middle_outer_views cur_dim count with
    | none => IterStep.panicked
    | some view =>
      IterStep.yielded view
        { s with dims_in_bloc := 0, bloc_count := s.bloc_count + 1 }
  else
    match s.mat.middle_outer_views cur_dim s.dims_in_bloc with
    | none => IterStep.panicked
    | some view => IterStep.yielded view { s with bloc_count := s.bloc_count + 1 }

/-- `eye` (csmat.rs lines 621-636): the CSR identity. -/
def CsMat.eye [One N] (dim : Nat) : CsMat N :=
  ⟨CSR, dim, dim, List.range (dim + 1), List.range dim, List.replicate dim 1⟩

/-- `eye_csc` (csmat.rs lines 648-663): the CSC identity. -/
def CsMat.eye_csc [One N] (dim : Nat) : CsMat N :=
  ⟨CSC, dim, dim, List.range (dim + 1), List.range dim, List.replicate dim 1⟩

/-- The outer slice `indices[indptr[o] .. indptr[o+1]]`. -/
def CsMat.sliceI (m : CsMat N) (o : Nat) : List Nat :=
  sliceRange m.indices (m.indptr.getD o 0) (m.indptr.getD (o + 1) 0)

/-- The outer slice `data[indptr[o] .. indptr[o+1]]`. -/
def CsMat.sliceD (m : CsMat N) (o : Nat) : List N :=
  sliceRange m.data (m.indptr.getD o 0) (m.indptr.getD (o + 1) 0)

/-- The structural invariants exactly as the spec states them (spec
sections 3 and 4.2): offsets length, monotonicity, last offset = nnz =
lengths of indices and values, offsets bounded by nnz and by half the
addressable range, per-slice index runs strictly ascending and below the
inner dimension. -/
def specValid (m : CsMat N) : Prop :=
  m.indptr.length = m.outer_dims + 1 ∧
  List.Chain' (· ≤ ·) m.indptr ∧
  m.indptr.getLast?.getD 0 = m.indices.length ∧
  m.data.length = m.indices.length ∧
  (∀ x ∈ m.indptr, x ≤ m.indices.length ∧ x ≤ usizeMax / 2) ∧
  ∀ o < m.outer_dims,
    List.Chain' (· < ·) (m.sliceI o) ∧ ∀ i ∈ m.sliceI o, i < m.inner_dims

/-- The conditions under which the structure check reaches the typed-error
stage instead of aborting. -/
def panicFree (m : CsMat N) : Prop :=
  m.indptr.length = m.outer_dims + 1 ∧
  m.data.length = m.indices.length ∧
  m.indptr.getLast?.getD 0 = m.indices.length ∧
  ∀ x ∈ m.indptr, x ≤ m.indices.length ∧ x ≤ usizeMax / 2

/-- The first per-slice violation, stated independently of the iterator:
scan the outer indices in increasing order; an unsorted run reports
NonSortedIndices, otherwise an out-of-range index reports OutOfBounds. -/
def specSliceViol (m : CsMat N) : Option SprsError :=
  (List.range m.outer_dims).findSome? fun o =>
    if ¬ List.Chain' (· < ·) (m.sliceI o) then some SprsError.NonSortedIndices
    else if ¬ ∀ i ∈ m.sliceI o, i < m.inner_dims then
      some SprsError.OutOfBoundsIndex
    else none

/-- The structural invariants without the addressable-range guard: what
owned mutation preserves, and all that the verified algorithms rely on. -/
def structOk (m : CsMat N) : Prop :=
  m.indptr.length = m.outer_dims + 1 ∧
  List.Chain' (· ≤ ·) m.indptr ∧
  m.indptr.getLast?.getD 0 = m.indices.length ∧
  m.data.length = m.indices.length ∧
  ∀ o < m.outer_dims,
    List.Chain' (· < ·) (m.sliceI o) ∧ ∀ i ∈ m.sliceI o, i < m.inner_dims

/-- The conclusion of the insertion characterization: the result is still
structurally sound, the dimensions grow exactly as needed, the inserted
index is stored in its outer slice and looking the position up returns the
inserted value, and the nonzero count grows by one unless the position was
already present. -/
def InsertConcl (m m' : CsMat N) (o i : Nat) (v : N) : Prop :=
  structOk m' ∧
  m'.storage = m.storage ∧
  m'.outer_dims = max (o + 1) m.outer_dims ∧
  m'.inner_dims = max m.inner_dims (i + 1) ∧
  i ∈ m'.sliceI o ∧
  m'.get_outer_inner o i = some v ∧
  m'.nnz = if o < m.outer_dims ∧ i ∈ m.sliceI o then m.nnz else m.nnz + 1

/-- The nonzeros of `es` whose inner index is `j`, as (outer, value)
pairs in the order of `es`: the destination slice `j` of the counting-sort
transpose. -/
def bucket (j : Nat) (es : List (Nat × Nat × N)) : List (Nat × N) :=
  (es.filter fun e => decide (e.2.1 = j)).map fun e => (e.1, e.2.2)

/-- Start position of destination slice `j` in the converted buffers. -/
def startOf (j : Nat) (es : List (Nat × Nat × N)) : Nat :=
  ((List.range j).map fun k => (bucket k es).length).sum

/-- Invariant of the scatter loop of `convert_mat_storage`, after the
prefix `p` of the input's nonzeros `es` has been processed: the write
cursor of every destination slice `j` sits `countP` entries past the
slice's start, and the prefix of every destination slice already holds
the outer indices and values of the nonzeros of `p` bound for it, in
order. `d` is the input's inner dimension. -/
def ScatterInv (d : Nat) (es p : List (Nat × Nat × N))
    (st : List Nat × List Nat × List N) : Prop :=
  st.1.length = d + 1 ∧ st.2.1.length = es.length ∧
  st.2.2.length = es.length ∧
  (∀ j, j ≤ d → st.1.getD j 0
      = startOf j es + p.countP fun e => decide (e.2.1 = j)) ∧
  ∀ j, j < d →
    sliceRange st.2.1 (startOf j es)
        (startOf j es + p.countP fun e => decide (e.2.1 = j))
      = (bucket j p).map Prod.fst ∧
    sliceRange st.2.2 (startOf j es)
        (startOf j es + p.countP fun e => decide (e.2.1 = j))
      = (bucket j p).map Prod.snd

instance (m : CsMat N) : Decidable (specValid m) :=
  inferInstanceAs (Decidable
    (m.indptr.length = m.outer_dims + 1 ∧
     List.Chain' (· ≤ ·) m.indptr ∧
     m.indptr.getLast?.getD 0 = m.indices.length ∧
     m.data.length = m.indices.length ∧
     (∀ x ∈ m.indptr, x ≤ m.indices.length ∧ x ≤ usizeMax / 2) ∧
     ∀ o < m.outer_dims,
       List.Chain' (· < ·) (m.sliceI o) ∧ ∀ i ∈ m.sliceI o, i < m.inner_dims))

instance (m : CsMat N) : Decidable (panicFree m) :=
  inferInstanceAs (Decidable
    (m.indptr.length = m.outer_dims + 1 ∧
     m.data.length = m.indices.length ∧
     m.indptr.getLast?.getD 0 = m.indices.length ∧
     ∀ x ∈ m.indptr, x ≤ m.indices.length ∧ x ≤ usizeMax / 2))

instance (m : CsMat N) : Decidable (structOk m) :=
  inferInstanceAs (Decidable
    (m.indptr.length = m.outer_dims + 1 ∧
     List.Chain' (· ≤ ·) m.indptr ∧
     m.indptr.getLast?.getD 0 = m.indices.length ∧
     m.data.length = m.indices.length ∧
     ∀ o < m.outer_dims,
       List.Chain' (· < ·) (m.sliceI o) ∧ ∀ i ∈ m.sliceI o, i < m.inner_dims))

/-! ### Basic lemmas about the list helpers -/

theorem sliceRange_getElem? (l : List α) (a b t : Nat) :
    (sliceRange l a b)[t]? = if t < b - a then l[a + t]? else none := by
  simp [sliceRange, List.getElem?_take, List.getElem?_drop]

theorem sliceRange_length (l : List α) (a b : Nat) :
    (sliceRange l a b).length = min (b - a) (l.length - a) := by
  simp [sliceRange]

theorem sliceRange_length_of_le (l : List α) (a b : Nat) (hab : a ≤ b)
    (hb : b ≤ l.length) : (sliceRange l a b).length = b - a := by
  rw [sliceRange_length]
  omega

theorem windowsPairs_eq (l : List Nat) :
    windowsPairs l =
      (List.range (l.length - 1)).map fun k => (l.getD k 0, l.getD (k + 1) 0) := by
  match l with
  | [] => rfl
  | [a] => rfl
  | a :: b :: t =>
    rw [windowsPairs, windowsPairs_eq (b :: t)]
    have h1 : (a :: b :: t).length - 1 = t.length + 1 := by simp
    have h2 : (b :: t).length - 1 = t.length := by simp
    rw [h1, h2, List.range_succ_eq_map, List.map_cons, List.map_map]
    refine List.cons_eq_cons.mpr ⟨rfl, ?_⟩
    exact List.map_congr_left fun k _ => by
      simp [Function.comp, List.getD_cons_succ]

theorem monotoneBy_le_iff (l : List Nat) :
    monotoneBy (fun a b => decide (a ≤ b)) l = true ↔ List.Chain' (· ≤ ·) l := by
  match l with
  | [] => simp [monotoneBy]
  | [a] => simp [monotoneBy]
  | a :: b :: t =>
    rw [monotoneBy, List.chain'_cons, Bool.and_eq_true, decide_eq_true_eq,
      monotoneBy_le_iff (b :: t)]

theorem monotoneBy_lt_iff (l : List Nat) :
    monotoneBy (fun a b => decide (a < b)) l = true ↔ List.Chain' (· < ·) l := by
  match l with
  | [] => simp [monotoneBy]
  | [a] => simp [monotoneBy]
  | a :: b :: t =>
    rw [monotoneBy, List.chain'_cons, Bool.and_eq_true, decide_eq_true_eq,
      monotoneBy_lt_iff (b :: t)]

theorem foldr_max_le_iff (l : List Nat) (c : Nat) :
    l.foldr max 0 ≤ c ↔ ∀ x ∈ l, x ≤ c := by
  induction l with
  | nil => simp
  | cons a t ih => simp [Nat.max_le, ih]

theorem getLast_getD_eq_getElem? (l : List Nat) :
    l.getLast?.getD 0 = (l[l.length - 1]?).getD 0 := by
  rw [List.getLast?_eq_getElem?]

/-- On a `(· ≤ ·)`-chained list, earlier entries are at most later ones. -/
theorem chain'_le_getD (l : List Nat) (h : List.Chain' (· ≤ ·) l)
    {i j : Nat} (hij : i ≤ j) (hj : j < l.length) :
    l.getD i 0 ≤ l.getD j 0 := by
  have hp : List.Pairwise (· ≤ ·) l := (List.chain'_iff_pairwise).1 h
  rcases Nat.eq_or_lt_of_le hij with rfl | hlt
  · exact Nat.le_refl _
  · have hi : i < l.length := Nat.lt_trans hlt hj
    have := List.pairwise_iff_getElem.1 hp i j hi hj hlt
    rw [List.getD_eq_getElem?_getD, List.getD_eq_getElem?_getD,
      List.getElem?_eq_getElem hi, List.getElem?_eq_getElem hj]
    exact this

theorem chain'_getD_le_getLast (l : List Nat) (h : List.Chain' (· ≤ ·) l)
    {i : Nat} (hi : i < l.length) : l.getD i 0 ≤ l.getLast?.getD 0 := by
  rw [getLast_getD_eq_getElem?]
  have : l.length - 1 < l.length := by omega
  have := chain'_le_getD l h (Nat.le_sub_one_of_lt hi) this
  rwa [List.getD_eq_getElem?_getD (n := l.length - 1)] at this

theorem findSome?_ext {f g : α → Option β} (l : List α)
    (h : ∀ x ∈ l, f x = g x) : l.findSome? f = l.findSome? g := by
  induction l with
  | nil => rfl
  | cons a t ih =>
    rw [List.findSome?_cons, List.findSome?_cons, h a (by simp)]
    cases g a with
    | none => exact ih fun x hx => h x (by simp [hx])
    | some b => rfl

/-! ### The structure check against the spec-side invariants -/

theorem vec_check_eq_viol (v : CsVec N) :
    v.check_structure =
      if ¬ List.Chain' (· < ·) v.indices then some SprsError.NonSortedIndices
      else if ¬ ∀ i ∈ v.indices, i < v.dim then some SprsError.OutOfBoundsIndex
      else none := by
  unfold CsVec.check_structure
  by_cases h1 : List.Chain' (· < ·) v.indices
  · rw [if_pos ((monotoneBy_lt_iff _).2 h1), if_neg (not_not_intro h1)]
    by_cases h2 : ∀ i ∈ v.indices, i < v.dim
    · rw [if_pos (by simpa using h2), if_neg (not_not_intro h2)]
    · rw [if_neg (by simpa using h2), if_pos h2]
  · rw [if_neg fun hb => h1 ((monotoneBy_lt_iff _).1 hb), if_pos h1]

theorem outerVecs_eq_range (m : CsMat N)
    (h : m.indptr.length = m.outer_dims + 1) :
    m.outerVecs = (List.range m.outer_dims).map fun o =>
      (⟨m.inner_dims, m.sliceI o, m.sliceD o⟩ : CsVec N) := by
  unfold CsMat.outerVecs
  rw [windowsPairs_eq, h]
  simp only [Nat.add_sub_cancel, List.map_map]
  rfl

theorem specSliceViol_eq_none_iff (m : CsMat N) :
    specSliceViol m = none ↔
      ∀ o < m.outer_dims,
        List.Chain' (· < ·) (m.sliceI o) ∧ ∀ i ∈ m.sliceI o, i < m.inner_dims := by
  unfold specSliceViol
  rw [List.findSome?_eq_none_iff]
  constructor
  · intro h o ho
    have h2 := h o (List.mem_range.2 ho)
    by_cases hC : List.Chain' (· < ·) (m.sliceI o)
    · by_cases hD : ∀ i ∈ m.sliceI o, i < m.inner_dims
      · exact ⟨hC, hD⟩
      · simp [hC, hD] at h2
    · simp [hC] at h2
  · intro h o ho
    have h2 := h o (List.mem_range.1 ho)
    rw [if_neg (not_not_intro h2.1), if_neg (not_not_intro h2.2)]

/-- The full structure check, characterized: abort unless `panicFree`, then
the unsorted-offsets error, then the first per-slice violation, else ok. -/
theorem check_eq_spec (m : CsMat N) :
    m.check_compressed_structure =
      if ¬ panicFree m then CheckResult.panicked
      else if ¬ List.Chain' (· ≤ ·) m.indptr then
        CheckResult.error SprsError.UnsortedIndptr
      else
        match specSliceViol m with
        | some e => CheckResult.error e
        | none => CheckResult.ok () := by
  unfold CsMat.check_compressed_structure
  by_cases h1 : m.indptr.length = m.outer_dims + 1
  · rw [if_neg (not_not_intro h1)]
    by_cases h2 : m.indices.length = m.data.length
    · rw [if_neg (not_not_intro h2)]
      by_cases h3 : m.indices.length = m.nnz
      · rw [if_neg (not_not_intro h3)]
        by_cases h4 : ∀ x ∈ m.indptr, x ≤ m.indices.length
        · have h4' : ¬ m.indptr.foldr max 0 > m.indices.length :=
            Nat.not_lt.2 ((foldr_max_le_iff _ _).2 h4)
          rw [if_neg h4']
          by_cases h5 : ∀ x ∈ m.indptr, x ≤ usizeMax / 2
          · have h5' : ¬ m.indptr.foldr max 0 > usizeMax / 2 :=
              Nat.not_lt.2 ((foldr_max_le_iff _ _).2 h5)
            rw [if_neg h5']
            have hpf : panicFree m :=
              ⟨h1, h2.symm, h3.symm, fun x hx => ⟨h4 x hx, h5 x hx⟩⟩
            rw [if_neg (not_not_intro hpf)]
            by_cases h6 : List.Chain' (· ≤ ·) m.indptr
            · rw [if_neg (not_not_intro ((monotoneBy_le_iff _).2 h6)),
                if_neg (not_not_intro h6)]
              have hv : m.outerVecs.findSome? CsVec.check_structure
                  = specSliceViol m := by
                rw [outerVecs_eq_range m h1, List.findSome?_map]
                exact findSome?_ext _ fun o _ => vec_check_eq_viol _
              rw [hv]
            · rw [if_pos (fun hb => h6 ((monotoneBy_le_iff _).1 hb)),
                if_pos h6]
          · have h5' : m.indptr.foldr max 0 > usizeMax / 2 := by
              by_contra hle
              exact h5 ((foldr_max_le_iff _ _).1 (Nat.not_lt.1 hle))
            rw [if_pos h5', if_pos (by
              rintro ⟨-, -, -, hm⟩
              exact h5 fun x hx => (hm x hx).2)]
        · have h4' : m.indptr.foldr max 0 > m.indices.length := by
            by_contra hle
            exact h4 ((foldr_max_le_iff _ _).1 (Nat.not_lt.1 hle))
          rw [if_pos h4', if_pos (by
            rintro ⟨-, -, -, hm⟩
            exact h4 fun x hx => (hm x hx).1)]
      · rw [if_pos h3, if_pos (by rintro ⟨-, -, hnnz, -⟩; exact h3 hnnz.symm)]
    · rw [if_pos h2, if_pos (by rintro ⟨-, hd, -⟩; exact h2 hd.symm)]
  · rw [if_pos h1, if_pos (by rintro ⟨hl, -⟩; exact h1 hl)]

theorem specValid_iff (m : CsMat N) :
    specValid m ↔
      panicFree m ∧ List.Chain' (· ≤ ·) m.indptr ∧ specSliceViol m = none := by
  rw [specSliceViol_eq_none_iff]
  unfold specValid panicFree
  tauto

/-- Claim C1 (amended): checked view construction returns the assembled view
exactly when the input satisfies all structural invariants; it aborts
(panics) exactly when the offsets length, the indices/values lengths, the
nnz count, or the offset bounds (out-of-bounds / overflow-risk) are wrong;
on inputs passing those checks it never aborts and reports non-monotonic
offsets and then the first per-slice violation (not-ascending or
out-of-bounds inner indices) as a typed error. -/
theorem C1_checked_view_construction {N : Type} (m : CsMat N) :
    (CsMat.new_view m.storage (m.nrows, m.ncols) m.indptr m.indices m.data
        = CheckResult.ok m ↔ specValid m) ∧
    (CsMat.new_view m.storage (m.nrows, m.ncols) m.indptr m.indices m.data
        = CheckResult.panicked ↔ ¬ panicFree m) ∧
    (panicFree m → ¬ List.Chain' (· ≤ ·) m.indptr →
      CsMat.new_view m.storage (m.nrows, m.ncols) m.indptr m.indices m.data
        = CheckResult.error SprsError.UnsortedIndptr) ∧
    (panicFree m → List.Chain' (· ≤ ·) m.indptr →
      CsMat.new_view m.storage (m.nrows, m.ncols) m.indptr m.indices m.data
        = match specSliceViol m with
          | some e => CheckResult.error e
          | none => CheckResult.ok m) := by
  have hnv : CsMat.new_view m.storage (m.nrows, m.ncols) m.indptr m.indices
      m.data
      = (match m.check_compressed_structure with
         | CheckResult.panicked => CheckResult.panicked
         | CheckResult.error e => CheckResult.error e
         | CheckResult.ok _ => CheckResult.ok m) := rfl
  rw [hnv, check_eq_spec m]
  by_cases hp : panicFree m
  · rw [if_neg (not_not_intro hp)]
    by_cases hc : List.Chain' (· ≤ ·) m.indptr
    · rw [if_neg (not_not_intro hc)]
      cases hviol : specSliceViol m with
      | some e =>
        refine ⟨iff_of_false (by simp) ?_,
          iff_of_false (by simp) (not_not_intro hp),
          fun _ hnc => (hnc hc).elim, fun _ _ => rfl⟩
        rw [specValid_iff]
        rintro ⟨-, -, hnone⟩
        rw [hviol] at hnone
        cases hnone
      | none =>
        exact ⟨iff_of_true rfl ((specValid_iff m).2 ⟨hp, hc, hviol⟩),
          iff_of_false (by simp) (not_not_intro hp),
          fun _ hnc => (hnc hc).elim, fun _ _ => rfl⟩
    · rw [if_pos hc]
      refine ⟨iff_of_false (by simp) ?_,
        iff_of_false (by simp) (not_not_intro hp),
        fun _ _ => rfl, fun _ hc2 => (hc hc2).elim⟩
      rw [specValid_iff]
      rintro ⟨-, hc2, -⟩
      exact hc hc2
  · rw [if_pos hp]
    refine ⟨iff_of_false (by simp) ?_, iff_of_true rfl hp,
      fun hp2 _ => (hp hp2).elim, fun hp2 _ => (hp hp2).elim⟩
    rw [specValid_iff]
    rintro ⟨hp2, -⟩
    exact hp hp2

/-- Claim C1 counterexample: on an offsets-length mismatch (the repository's
own test `test_new_csr_bad_indptr_length` exercises exactly this input and
expects the panic) the checked constructor aborts instead of returning a
typed error, so checked view construction does not handle every malformed
input recoverably. -/
theorem C1_counterexample :
    CsMat.new_view CompressedStorage.CSR (3, 3) [0, 1, 2] [0, 1, 2]
      ([1, 1, 1] : List Int) = CheckResult.panicked := by decide

/-- Witness for C1: the amended characterization applied to a concrete
well-formed 2x2 input, yielding the checked view. -/
theorem C1_witness :
    CsMat.new_view CompressedStorage.CSR (2, 2) [0, 1, 2] [0, 1]
      ([5, 7] : List Int)
      = CheckResult.ok
          ⟨CompressedStorage.CSR, 2, 2, [0, 1, 2], [0, 1], [5, 7]⟩ :=
  (C1_checked_view_construction
    ⟨CompressedStorage.CSR, 2, 2, [0, 1, 2], [0, 1], [5, 7]⟩).1.mpr (by decide)

/-! ### Binary search and slice lookup -/

theorem rustBinarySearch_not_mem {l : List Nat} {x : Nat} (h : x ∉ l) :
    rustBinarySearch l x
      = Except.error (l.countP fun y => decide (y < x)) := by
  unfold rustBinarySearch
  rw [List.indexOf?_eq_none_iff.2 fun y hy => by
    intro hb
    exact h (by rwa [beq_iff_eq.1 hb] at hy)]

theorem lookup_zip {β : Type} {I : List Nat} (hnd : I.Nodup) {D : List β}
    {i : Nat} {v : β} (hm : (i, v) ∈ I.zip D) :
    (match rustBinarySearch I i with
     | Except.ok k => D[k]?
     | Except.error _ => none) = some v := by
  induction I generalizing D with
  | nil => simp [List.zip] at hm
  | cons a I' ih =>
    cases D with
    | nil => simp [List.zip] at hm
    | cons d D' =>
      rw [List.zip_cons_cons] at hm
      unfold rustBinarySearch
      rw [List.indexOf?_cons]
      by_cases hax : a = i
      · have hv : v = d := by
          rcases List.mem_cons.1 hm with he | ht
          · exact (Prod.mk.injEq _ _ _ _ ▸ he).2.symm ▸ rfl
          · exact absurd ((List.of_mem_zip ht).1) (by
              rw [← hax] at *
              exact (List.nodup_cons.1 hnd).1)
        rw [if_pos (by simpa using hax)]
        simpa using hv.symm
      · rw [if_neg (by simpa using hax)]
        have hmt : (i, v) ∈ I'.zip D' := by
          rcases List.mem_cons.1 hm with he | ht
          · exact absurd (congrArg Prod.fst he).symm hax
          · exact ht
        have ihm := ih (List.nodup_cons.1 hnd).2 hmt
        unfold rustBinarySearch at ihm
        cases hio : List.indexOf? i I' with
        | none => rw [hio] at ihm; simp at ihm
        | some k =>
          rw [hio] at ihm
          simpa using ihm

/-- Looking up a stored index in a slice with duplicate-free indices returns
the value paired with it. -/
theorem CsVec_get_of_mem {β : Type} {d : Nat} {I : List Nat} {D : List β}
    (hnd : I.Nodup) {i : Nat} {v : β} (hm : (i, v) ∈ I.zip D) :
    CsVec.get_ ⟨d, I, D⟩ i = some v :=
  lookup_zip hnd hm

/-! ### Sorting pairs by index -/

theorem zip_map_fst_snd {β : Type} (ps : List (Nat × β)) :
    (ps.map Prod.fst).zip (ps.map Prod.snd) = ps := by
  induction ps with
  | nil => rfl
  | cons p t ih => simpa [List.zip_cons_cons] using ih

theorem mergeSort_pairs_perm {β : Type} (ps : List (Nat × β)) :
    (ps.mergeSort fun a b => decide (a.1 ≤ b.1)).Perm ps :=
  List.mergeSort_perm ps _

theorem mergeSort_pairs_sorted {β : Type} (ps : List (Nat × β)) :
    List.Pairwise (fun a b : Nat × β => a.1 ≤ b.1)
      (ps.mergeSort fun a b => decide (a.1 ≤ b.1)) := by
  have h := @List.sorted_mergeSort (Nat × β)
    (fun a b : Nat × β => decide (a.1 ≤ b.1))
    (fun a b c hab hbc => by
      simp only [decide_eq_true_eq] at *
      omega)
    (fun a b => by
      simp only [Bool.or_eq_true, decide_eq_true_eq]
      exact Nat.le_total _ _)
    ps
  exact h.imp fun hab => by simpa using hab

/-! ### More slice and window helpers -/

theorem sliceRange_zero (l : List α) (b : Nat) :
    sliceRange l 0 b = l.take b := by
  simp [sliceRange]

theorem mem_of_mem_sliceRange {l : List α} {a b : Nat} {x : α}
    (h : x ∈ sliceRange l a b) : x ∈ l :=
  List.mem_of_mem_drop (List.mem_of_mem_take h)

theorem sliceRange_append {P T : List α} {s t c : Nat} (hc : P.length = c)
    (hs : c ≤ s) : sliceRange (P ++ T) s t = sliceRange T (s - c) (t - c) := by
  unfold sliceRange
  have hdrop : List.drop s (P ++ T) = List.drop (s - c) T := by
    conv_lhs => rw [show s = P.length + (s - c) by omega]
    rw [List.drop_append]
  rw [hdrop]
  congr 1
  omega

theorem writeRange_append {P T repl : List α} {s c : Nat} (hc : P.length = c)
    (hs : c ≤ s) :
    writeRange (P ++ T) s repl = P ++ writeRange T (s - c) repl := by
  unfold writeRange
  have htake : List.take s (P ++ T) = P ++ List.take (s - c) T := by
    conv_lhs => rw [show s = P.length + (s - c) by omega]
    rw [List.take_append]
  have hdrop : List.drop (s + repl.length) (P ++ T)
      = List.drop (s - c + repl.length) T := by
    conv_lhs => rw [show s + repl.length
      = P.length + (s - c + repl.length) by omega]
    rw [List.drop_append]
  rw [htake, hdrop]
  simp [List.append_assoc]

theorem sliceRange_drop (l : List α) (c a b : Nat) :
    sliceRange (l.drop c) a b = sliceRange l (c + a) (c + b) := by
  unfold sliceRange
  rw [List.drop_drop, show (c + b) - (c + a) = b - a by omega]

theorem windowsPairs_map (f : Nat → Nat) (l : List Nat) :
    windowsPairs (l.map f) = (windowsPairs l).map fun w => (f w.1, f w.2) := by
  match l with
  | [] => rfl
  | [a] => rfl
  | a :: b :: t =>
    simp only [List.map_cons]
    rw [windowsPairs, windowsPairs, List.map_cons]
    refine List.cons_eq_cons.mpr ⟨rfl, ?_⟩
    simpa using windowsPairs_map f (b :: t)

theorem windowsPairs_le {l : List Nat} (h : List.Chain' (· ≤ ·) l) :
    ∀ w ∈ windowsPairs l, w.1 ≤ w.2 := by
  match l with
  | [] => intro w hw; cases hw
  | [a] => intro w hw; cases hw
  | a :: b :: t =>
    intro w hw
    rcases List.mem_cons.1 hw with rfl | ht
    · exact (List.chain'_cons.1 h).1
    · exact windowsPairs_le (List.chain'_cons.1 h).2 w ht

theorem chain'_head_le {a : Nat} {l : List Nat}
    (h : List.Chain' (· ≤ ·) (a :: l)) : ∀ x ∈ a :: l, a ≤ x := by
  intro x hx
  rcases List.mem_cons.1 hx with rfl | hx'
  · exact Nat.le_refl _
  · rcases List.mem_iff_getElem.1 hx' with ⟨n, hn, rfl⟩
    have := chain'_le_getD (a :: l) h (Nat.zero_le (n + 1))
      (by simpa using Nat.succ_lt_succ hn)
    simpa [List.getD_cons_zero, List.getD_cons_succ,
      List.getD_eq_getElem?_getD, List.getElem?_eq_getElem hn] using this

theorem windowsPairs_head_le {a : Nat} {l : List Nat}
    (h : List.Chain' (· ≤ ·) (a :: l)) :
    ∀ w ∈ windowsPairs (a :: l), a ≤ w.1 := by
  match l with
  | [] => intro w hw; cases hw
  | b :: t =>
    intro w hw
    rcases List.mem_cons.1 hw with rfl | ht
    · exact Nat.le_refl _
    · exact Nat.le_trans (List.chain'_cons.1 h).1
        (windowsPairs_head_le (List.chain'_cons.1 h).2 w ht)

/-! ### map and map_inplace -/

theorem sliceRange_map (f : α → β) (l : List α) (a b : Nat) :
    sliceRange (l.map f) a b = (sliceRange l a b).map f := by
  simp [sliceRange, List.map_take, List.map_drop]

theorem get_outer_inner_map_inplace (m : CsMat N) (f : N → N) (o i : Nat) :
    (m.map_inplace f).get_outer_inner o i = (m.get_outer_inner o i).map f := by
  unfold CsMat.get_outer_inner CsMat.outer_view CsMat.map_inplace
    CsMat.outer_dims CsMat.inner_dims
  dsimp only
  by_cases ho : o < outer_dimension m.storage m.nrows m.ncols
  · rw [if_pos ho, if_pos ho]
    dsimp only [Option.bind]
    unfold CsVec.get_
    dsimp only
    cases rustBinarySearch
        (sliceRange m.indices (m.indptr.getD o 0) (m.indptr.getD (o + 1) 0))
        i with
    | ok i' => simp [sliceRange_map, List.getElem?_map]
    | error j => rfl
  · rw [if_neg ho, if_neg ho]
    rfl

/-- Claim C9: `map(f)` and `map_inplace(f)` apply f to every stored value
and leave the offsets, the inner indices, the shape, the storage mode and
the nonzero count unchanged; an entry whose value is mapped to zero stays
in the sparsity pattern — for every position, `get` after mapping is the
mapped `get`, so no entry is pruned. -/
theorem C9_map_preserves_pattern {N : Type} (m : CsMat N) (f : N → N) :
    (m.map_inplace f).storage = m.storage ∧
    (m.map_inplace f).shape = m.shape ∧
    (m.map_inplace f).indptr = m.indptr ∧
    (m.map_inplace f).indices = m.indices ∧
    (m.map_inplace f).data = m.data.map f ∧
    (m.map_inplace f).nnz = m.nnz ∧
    m.map f = m.map_inplace f ∧
    ∀ i j, (m.map_inplace f).get i j = (m.get i j).map f := by
  refine ⟨rfl, rfl, rfl, rfl, rfl, rfl, rfl, fun i j => ?_⟩
  unfold CsMat.get
  have hs : (m.map_inplace f).storage = m.storage := rfl
  rw [hs]
  cases m.storage with
  | CSR => exact get_outer_inner_map_inplace m f i j
  | CSC => exact get_outer_inner_map_inplace m f j i

/-! ### The per-slice sorting fold of owned construction -/

theorem writeRange_zero (l repl : List α) :
    writeRange l 0 repl = repl ++ l.drop repl.length := by
  simp [writeRange]

theorem getD_map_sub (l : List Nat) (c k : Nat) :
    (l.map fun x => x - c).getD k 0 = l.getD k 0 - c := by
  rw [List.getD_eq_getElem?_getD, List.getD_eq_getElem?_getD,
    List.getElem?_map]
  cases l[k]? <;> simp

/-- Sub-slice sorting steps acting beyond a fixed prefix leave that prefix
untouched and act on the suffix with shifted windows. -/
theorem sortFold_shift {β : Type} (ws : List (Nat × Nat)) :
    ∀ (P T : List Nat) (PD TD : List β) (c : Nat), P.length = c →
      PD.length = c → (∀ w ∈ ws, c ≤ w.1) →
      ws.foldl sortStep (P ++ T, PD ++ TD)
        = (P ++ ((ws.map fun w => (w.1 - c, w.2 - c)).foldl sortStep
              (T, TD)).1,
           PD ++ ((ws.map fun w => (w.1 - c, w.2 - c)).foldl sortStep
              (T, TD)).2) := by
  induction ws with
  | nil => intro P T PD TD c hP hPD _; rfl
  | cons w ws' ih =>
    intro P T PD TD c hP hPD hws
    have hcw : c ≤ w.1 := hws w (by simp)
    have hstep : sortStep (P ++ T, PD ++ TD) w
        = (P ++ (sortStep (T, TD) (w.1 - c, w.2 - c)).1,
           PD ++ (sortStep (T, TD) (w.1 - c, w.2 - c)).2) := by
      unfold sortStep
      rw [sliceRange_append hP hcw, sliceRange_append hPD hcw]
      exact Prod.ext (writeRange_append hP hcw) (writeRange_append hPD hcw)
    rw [List.foldl_cons, hstep,
      ih P _ PD _ c hP hPD (fun v hv => hws v (by simp [hv]))]
    rw [List.map_cons, List.foldl_cons]

/-- The `sort_indices` fold, characterized: with well-formed offsets it
leaves buffer lengths unchanged and replaces every outer slice by its
stably index-sorted version. -/
theorem sortFold_spec {β : Type} :
    ∀ (n : Nat) (iptr I : List Nat) (D : List β), iptr.length = n →
      List.Chain' (· ≤ ·) iptr → iptr.head? = some 0 →
      iptr.getLast?.getD 0 = I.length → I.length = D.length →
      ((windowsPairs iptr).foldl sortStep (I, D)).1.length = I.length ∧
      ((windowsPairs iptr).foldl sortStep (I, D)).2.length = D.length ∧
      ∀ o, o + 1 < iptr.length →
        sliceRange ((windowsPairs iptr).foldl sortStep (I, D)).1
            (iptr.getD o 0) (iptr.getD (o + 1) 0)
          = (sort_indices_data_slices
              (sliceRange I (iptr.getD o 0) (iptr.getD (o + 1) 0))
              (sliceRange D (iptr.getD o 0) (iptr.getD (o + 1) 0))).1 ∧
        sliceRange ((windowsPairs iptr).foldl sortStep (I, D)).2
            (iptr.getD o 0) (iptr.getD (o + 1) 0)
          = (sort_indices_data_slices
              (sliceRange I (iptr.getD o 0) (iptr.getD (o + 1) 0))
              (sliceRange D (iptr.getD o 0) (iptr.getD (o + 1) 0))).2 := by
  intro n
  induction n with
  | zero =>
    intro iptr I D hn _ hh _ _
    cases iptr with
    | nil => cases hh
    | cons a t => cases hn
  | succ n ih =>
    intro iptr I D hn hch hh hlast hlen
    obtain ⟨rest, rfl⟩ : ∃ rest, iptr = 0 :: rest := by
      cases iptr with
      | nil => cases hh
      | cons a rest =>
        exact ⟨rest, by rw [show a = 0 from by simpa using hh]⟩
    cases rest with
    | nil =>
      refine ⟨rfl, rfl, fun o ho => ?_⟩
      simp at ho
    | cons c rest' =>
      have hch1 : List.Chain' (· ≤ ·) (c :: rest') := (List.chain'_cons.1 hch).2
      have hgl : (0 :: c :: rest').getLast?.getD 0
          = (c :: rest').getLast?.getD 0 := by
        rw [List.getLast?_cons_cons]
      have hcI : c ≤ I.length := by
        have h1 : (1 : Nat) < (0 :: c :: rest').length := by simp
        have h2 := chain'_getD_le_getLast (0 :: c :: rest') hch h1
        rw [hlast] at h2
        simpa using h2
      -- the first window sorts the leading slice
      have hwin : windowsPairs (0 :: c :: rest')
          = (0, c) :: windowsPairs (c :: rest') := rfl
      have hSlen : (sort_indices_data_slices (sliceRange I 0 c)
          (sliceRange D 0 c)).1.length = c := by
        simp only [sort_indices_data_slices, List.length_map,
          List.length_mergeSort, List.length_zip, sliceRange,
          List.drop_zero, Nat.sub_zero, List.length_take]
        omega
      have hSDlen : (sort_indices_data_slices (sliceRange I 0 c)
          (sliceRange D 0 c)).2.length = c := by
        simp only [sort_indices_data_slices, List.length_map,
          List.length_mergeSort, List.length_zip, sliceRange,
          List.drop_zero, Nat.sub_zero, List.length_take]
        omega
      have hstep1 : sortStep (I, D) (0, c)
          = ((sort_indices_data_slices (sliceRange I 0 c)
                (sliceRange D 0 c)).1 ++ I.drop c,
             (sort_indices_data_slices (sliceRange I 0 c)
                (sliceRange D 0 c)).2 ++ D.drop c) := by
      -- writeRange at position 0 replaces the prefix of slice length
        unfold sortStep
        dsimp only
        rw [writeRange_zero, writeRange_zero, hSlen, hSDlen]
      have hws : ∀ w ∈ windowsPairs (c :: rest'), c ≤ w.1 :=
        windowsPairs_head_le hch1
      have hshift := sortFold_shift (windowsPairs (c :: rest'))
        (sort_indices_data_slices (sliceRange I 0 c) (sliceRange D 0 c)).1
        (I.drop c)
        (sort_indices_data_slices (sliceRange I 0 c) (sliceRange D 0 c)).2
        (D.drop c) c hSlen hSDlen hws
      have hmapw : (windowsPairs (c :: rest')).map
            (fun w => (w.1 - c, w.2 - c))
          = windowsPairs ((c :: rest').map fun x => x - c) := by
        rw [windowsPairs_map]
      -- the inductive hypothesis on the shifted tail
      have hih := ih ((c :: rest').map fun x => x - c) (I.drop c) (D.drop c)
        (by simpa using Nat.succ_injective hn)
        (by
          rw [List.chain'_map]
          exact hch1.imp fun a b hab => Nat.sub_le_sub_right hab c)
        (by simp)
        (by
          rw [List.getLast?_map]
          rw [hgl] at hlast
          cases hgle : (c :: rest').getLast? with
          | none => simp at hgle
          | some L =>
            rw [hgle] at hlast
            simp only [hgle, Option.map_some, Option.getD_some,
              List.length_drop]
            simpa using congrArg (· - c) hlast)
        (by simp [hlen])
      rw [hwin, List.foldl_cons, hstep1, hshift, hmapw]
      obtain ⟨hL1, hL2, hsl⟩ := hih
      have hdI : (I.drop c).length = I.length - c := List.length_drop c I
      have hdD : (D.drop c).length = D.length - c := List.length_drop c D
      refine ⟨?_, ?_, fun o ho => ?_⟩
      · rw [List.length_append, hSlen, hL1, List.length_drop]
        omega
      · rw [List.length_append, hSDlen, hL2, List.length_drop]
        omega
      cases o with
      | zero =>
        have h0 : (0 :: c :: rest').getD 0 0 = 0 := rfl
        have h1 : (0 :: c :: rest').getD 1 0 = c := rfl
        rw [h0, h1]
        constructor
        · rw [sliceRange_zero, List.take_append_of_le_length (by rw [hSlen]),
            List.take_of_length_le (by rw [hSlen])]
        · rw [sliceRange_zero, List.take_append_of_le_length (by rw [hSDlen]),
            List.take_of_length_le (by rw [hSDlen])]
      | succ o' =>
        have hs : (0 :: c :: rest').getD (o' + 1) 0 = (c :: rest').getD o' 0 :=
          List.getD_cons_succ
        have ht : (0 :: c :: rest').getD (o' + 2) 0
            = (c :: rest').getD (o' + 1) 0 := List.getD_cons_succ
        rw [hs, ht]
        have ho' : o' + 1 < (c :: rest').length := by
          simpa using Nat.lt_of_succ_lt_succ ho
        have hcs : c ≤ (c :: rest').getD o' 0 := by
          have := chain'_le_getD (c :: rest') hch1 (Nat.zero_le o')
            (Nat.lt_of_succ_lt ho')
          simpa using this
        have hct : c ≤ (c :: rest').getD (o' + 1) 0 := by
          have := chain'_le_getD (c :: rest') hch1 (Nat.zero_le (o' + 1)) ho'
          simpa using this
        have hslo := hsl o' (by simpa using ho')
        rw [getD_map_sub, getD_map_sub] at hslo
        have harr1 : sliceRange (I.drop c)
              ((c :: rest').getD o' 0 - c) ((c :: rest').getD (o' + 1) 0 - c)
            = sliceRange I ((c :: rest').getD o' 0)
                ((c :: rest').getD (o' + 1) 0) := by
          rw [sliceRange_drop]
          congr 1 <;> omega
        have harr2 : sliceRange (D.drop c)
              ((c :: rest').getD o' 0 - c) ((c :: rest').getD (o' + 1) 0 - c)
            = sliceRange D ((c :: rest').getD o' 0)
                ((c :: rest').getD (o' + 1) 0) := by
          rw [sliceRange_drop]
          congr 1 <;> omega
        rw [harr1, harr2] at hslo
        constructor
        · rw [sliceRange_append hSlen hcs]
          exact hslo.1
        · rw [sliceRange_append hSDlen hcs]
          exact hslo.2

theorem chain'_mem_le_getLast {l : List Nat} (h : List.Chain' (· ≤ ·) l)
    {x : Nat} (hx : x ∈ l) : x ≤ l.getLast?.getD 0 := by
  rcases List.mem_iff_getElem.1 hx with ⟨n, hn, rfl⟩
  have := chain'_getD_le_getLast l h hn
  rwa [List.getD_eq_getElem?_getD, List.getElem?_eq_getElem hn] at this

/-! ### Lemmas for insertion -/

theorem indexOf?_spec {l : List Nat} {x k : Nat}
    (h : List.indexOf? x l = some k) : k < l.length ∧ l[k]? = some x := by
  induction l generalizing k with
  | nil => cases h
  | cons a t ih =>
    rw [List.indexOf?_cons] at h
    by_cases hax : a = x
    · rw [if_pos (by simpa using hax)] at h
      cases h
      exact ⟨by simp, by simp [hax]⟩
    · rw [if_neg (by simpa using hax)] at h
      cases hio : List.indexOf? x t with
      | none => rw [hio] at h; cases h
      | some k' =>
        rw [hio] at h
        cases h
        obtain ⟨hk, he⟩ := ih hio
        exact ⟨by simpa using Nat.succ_lt_succ hk, by simpa using he⟩

theorem rustBinarySearch_cases {l : List Nat} {x : Nat} :
    (∃ k, rustBinarySearch l x = Except.ok k ∧ k < l.length ∧
      l[k]? = some x) ∨
    (x ∉ l ∧ rustBinarySearch l x
      = Except.error (l.countP fun y => decide (y < x))) := by
  unfold rustBinarySearch
  cases hio : List.indexOf? x l with
  | none =>
    refine Or.inr ⟨fun hx => ?_, rfl⟩
    have := List.indexOf?_eq_none_iff.1 hio x hx
    simp at this
  | some k => exact Or.inl ⟨k, rfl, indexOf?_spec hio⟩

theorem listInsertAt_length {l : List α} {p : Nat} (hp : p ≤ l.length)
    (x : α) : (listInsertAt l p x).length = l.length + 1 := by
  unfold listInsertAt
  simp only [List.length_append, List.length_cons, List.length_take,
    List.length_drop]
  omega

theorem mem_listInsertAt_self (l : List α) (p : Nat) (x : α) :
    x ∈ listInsertAt l p x := by
  unfold listInsertAt
  simp

theorem sliceRange_append_frozen {l l2 : List α} {a b : Nat} (hab : a ≤ b)
    (hb : b ≤ l.length) : sliceRange (l ++ l2) a b = sliceRange l a b := by
  unfold sliceRange
  rw [List.drop_append_of_le_length (by omega),
    List.take_append_of_le_length (by simp; omega)]

theorem sliceRange_insertAt_high {l : List α} {p a b : Nat} {x : α}
    (hab : a ≤ b) (hbp : b ≤ p) (hpl : p ≤ l.length) :
    sliceRange (listInsertAt l p x) a b = sliceRange l a b := by
  unfold listInsertAt sliceRange
  rw [List.drop_append_of_le_length (by simp; omega),
    List.take_append_of_le_length (by
      simp only [List.length_drop, List.length_take]
      omega)]
  rw [List.drop_take, List.take_take]
  congr 1
  omega

theorem sliceRange_insertAt_mid {l : List α} {p a b : Nat} {x : α}
    (hap : a ≤ p) (hpb : p ≤ b) (hbl : b ≤ l.length) :
    sliceRange (listInsertAt l p x) a (b + 1)
      = listInsertAt (sliceRange l a b) (p - a) x := by
  unfold listInsertAt sliceRange
  rw [List.drop_append_of_le_length (by simp; omega)]
  have hlen : (List.drop a (List.take p l)).length = p - a := by
    simp only [List.length_drop, List.length_take]
    omega
  conv_lhs => rw [show b + 1 - a = (List.drop a (List.take p l)).length
    + (b + 1 - p) by rw [hlen]; omega]
  rw [List.take_append, show b + 1 - p = (b - p) + 1 by omega,
    List.take_succ_cons]
  have h1 : List.take (p - a) (List.take (b - a) (List.drop a l))
      = List.drop a (List.take p l) := by
    rw [List.drop_take, List.take_take]
    congr 1
    omega
  have h2 : List.drop (p - a) (List.take (b - a) (List.drop a l))
      = List.take (b - p) (List.drop p l) := by
    rw [List.drop_take, List.drop_drop,
      show (b - a) - (p - a) = b - p by omega,
      show a + (p - a) = p by omega]
  rw [h1, h2]

theorem sliceRange_insertAt_low {l : List α} {p a b : Nat} {x : α}
    (hpa : p ≤ a) (hpl : p ≤ l.length) :
    sliceRange (listInsertAt l p x) (a + 1) (b + 1) = sliceRange l a b := by
  unfold listInsertAt sliceRange
  rw [show List.take p l ++ x :: List.drop p l
    = (List.take p l ++ [x]) ++ List.drop p l by simp]
  have hpre : (List.take p l ++ [x]).length = p + 1 := by
    simp only [List.length_append, List.length_cons, List.length_take,
      List.length_nil]
    omega
  conv_lhs => rw [show a + 1 = (List.take p l ++ [x]).length + (a - p)
    by rw [hpre]; omega]
  rw [List.drop_append, List.drop_drop, show p + (a - p) = a by omega, hpre,
    show b + 1 - (p + 1 + (a - p)) = b - a by omega]

theorem chain'_replicate_le (n c : Nat) :
    List.Chain' (· ≤ ·) (List.replicate n c) := by
  induction n with
  | zero => exact List.chain'_nil
  | succ n ih =>
    cases n with
    | zero => exact List.chain'_singleton c
    | succ n' =>
      rw [List.replicate_succ]
      exact List.chain'_cons.2 ⟨Nat.le_refl c, ih⟩

/-- On a strictly sorted duplicate-free list, the count of elements below
`x` splits the list into the part below `x` and the part above it. -/
theorem sorted_countP_split {l : List Nat} (hs : List.Pairwise (· < ·) l)
    (x : Nat) (hx : x ∉ l) :
    (∀ a ∈ l.take (l.countP fun y => decide (y < x)), a < x) ∧
    (∀ b ∈ l.drop (l.countP fun y => decide (y < x)), x < b) := by
  induction l with
  | nil =>
    constructor
    · intro a ha
      simp at ha
    · intro b hb
      simp at hb
  | cons a t ih =>
    obtain ⟨hat, ht⟩ := List.pairwise_cons.1 hs
    have hxt : x ∉ t := fun hxt => hx (by simp [hxt])
    by_cases hax : a < x
    · rw [List.countP_cons, if_pos (by simpa using hax)]
      obtain ⟨ih1, ih2⟩ := ih ht hxt
      refine ⟨fun y hy => ?_, fun y hy => ?_⟩
      · rw [List.take_succ_cons] at hy
        rcases List.mem_cons.1 hy with rfl | hyt
        · exact hax
        · exact ih1 y hyt
      · rw [List.drop_succ_cons] at hy
        exact ih2 y hy
    · have hxa : x < a :=
        Nat.lt_of_le_of_ne (Nat.le_of_not_lt hax)
          fun he => hx (by simp [he])
      have hzero : (a :: t).countP (fun y => decide (y < x)) = 0 := by
        rw [List.countP_eq_zero]
        intro y hy
        rcases List.mem_cons.1 hy with rfl | hyt
        · simpa using hax
        · have := hat y hyt
          simp only [decide_eq_true_eq]
          omega
      rw [hzero]
      constructor
      · intro y hy
        simp at hy
      · intro y hy
        rw [List.drop_zero] at hy
        rcases List.mem_cons.1 hy with rfl | hyt
        · exact hxa
        · exact Nat.lt_trans hxa (hat y hyt)

/-- Inserting an absent element at its insertion point preserves strict
sortedness. -/
theorem chain'_insertAt_sorted {l : List Nat} (hs : List.Chain' (· < ·) l)
    {x : Nat} (hx : x ∉ l) :
    List.Chain' (· < ·)
      (listInsertAt l (l.countP fun y => decide (y < x)) x) := by
  have hp := List.chain'_iff_pairwise.1 hs
  obtain ⟨h1, h2⟩ := sorted_countP_split hp x hx
  rw [List.chain'_iff_pairwise]
  unfold listInsertAt
  rw [List.pairwise_append]
  refine ⟨hp.sublist (List.take_sublist _ _), ?_, ?_⟩
  · rw [List.pairwise_cons]
    exact ⟨h2, hp.sublist (List.drop_sublist _ _)⟩
  · intro a ha b hb
    rcases List.mem_cons.1 hb with rfl | hbt
    · exact h1 a ha
    · exact Nat.lt_trans (h1 a ha) (h2 b hbt)

/-- Setting a value at a flat position inside a slice sets it inside the
extracted slice. -/
theorem sliceRange_set_within {l : List α} {a b k : Nat} {x : α}
    (hk : a + k < b) (hb : b ≤ l.length) :
    sliceRange (l.set (a + k) x) a b = (sliceRange l a b).set k x := by
  refine List.ext_getElem? fun t => ?_
  have hslen : (sliceRange l a b).length = b - a := by
    rw [sliceRange_length]
    omega
  rw [List.getElem?_set, sliceRange_getElem?, List.getElem?_set, hslen,
    sliceRange_getElem?]
  by_cases hkt : k = t
  · subst hkt
    simp [show k < b - a from by omega, show a + k < l.length from by omega]
  · simp [show a + k ≠ a + t from by omega, hkt]

theorem set_outer_dims_fields (m : CsMat N) (k : Nat) :
    (m.set_outer_dims k).indptr = m.indptr ∧
    (m.set_outer_dims k).indices = m.indices ∧
    (m.set_outer_dims k).data = m.data ∧
    (m.set_outer_dims k).storage = m.storage ∧
    (m.set_outer_dims k).outer_dims = k ∧
    (m.set_outer_dims k).inner_dims = m.inner_dims := by
  unfold CsMat.set_outer_dims CsMat.outer_dims CsMat.inner_dims
    outer_dimension inner_dimension
  cases m.storage <;> exact ⟨rfl, rfl, rfl, rfl, rfl, rfl⟩

theorem set_inner_dims_fields (m : CsMat N) (k : Nat) :
    (m.set_inner_dims k).indptr = m.indptr ∧
    (m.set_inner_dims k).indices = m.indices ∧
    (m.set_inner_dims k).data = m.data ∧
    (m.set_inner_dims k).storage = m.storage ∧
    (m.set_inner_dims k).outer_dims = m.outer_dims ∧
    (m.set_inner_dims k).inner_dims = k := by
  unfold CsMat.set_inner_dims CsMat.outer_dims CsMat.inner_dims
    outer_dimension inner_dimension
  cases m.storage <;> exact ⟨rfl, rfl, rfl, rfl, rfl, rfl⟩

theorem chain'_le_iff_getD (l : List Nat) :
    List.Chain' (· ≤ ·) l ↔
      ∀ k, k + 1 < l.length → l.getD k 0 ≤ l.getD (k + 1) 0 := by
  rw [List.chain'_iff_get]
  constructor
  · intro h k hk
    have h2 := h k (by omega)
    rw [List.get_eq_getElem, List.get_eq_getElem] at h2
    rw [List.getD_eq_getElem?_getD, List.getD_eq_getElem?_getD,
      List.getElem?_eq_getElem (show k < l.length by omega),
      List.getElem?_eq_getElem (show k + 1 < l.length by omega)]
    exact h2
  · intro h k hk
    have h2 := h k (by omega)
    rw [List.getD_eq_getElem?_getD, List.getD_eq_getElem?_getD,
      List.getElem?_eq_getElem (show k < l.length by omega),
      List.getElem?_eq_getElem (show k + 1 < l.length by omega)] at h2
    rw [List.get_eq_getElem, List.get_eq_getElem]
    exact h2

theorem getD_mem' {l : List α} {k : Nat} (hk : k < l.length) (d : α) :
    l.getD k d ∈ l := by
  rw [List.getD_eq_getElem?_getD, List.getElem?_eq_getElem hk]
  exact List.getElem_mem hk

theorem mem_of_mem_listInsertAt {l : List α} {p : Nat} {x y : α}
    (h : y ∈ listInsertAt l p x) : y = x ∨ y ∈ l := by
  unfold listInsertAt at h
  rcases List.mem_append.1 h with h1 | h2
  · exact Or.inr (List.mem_of_mem_take h1)
  · rcases List.mem_cons.1 h2 with rfl | h3
    · exact Or.inl rfl
    · exact Or.inr (List.mem_of_mem_drop h3)

theorem nodup_of_chain'_lt {l : List Nat} (h : List.Chain' (· < ·) l) :
    l.Nodup :=
  (List.chain'_iff_pairwise.1 h).imp Nat.ne_of_lt

theorem sliceRange_concat_last {l : List α} {x : α} :
    sliceRange (l ++ [x]) l.length (l.length + 1) = [x] := by
  unfold sliceRange
  rw [List.drop_left, show l.length + 1 - l.length = 1 by omega]
  rfl

theorem sliceRange_empty (l : List α) (a : Nat) : sliceRange l a a = [] := by
  unfold sliceRange
  rw [Nat.sub_self]
  rfl

theorem insertA_eq {N : Type} (m : CsMat N) (o i : Nat) (v : N)
    (ho : o ≥ m.outer_dims) :
    (m.insert_outer_inner o i v).storage = m.storage ∧
    (m.insert_outer_inner o i v).indptr
      = (m.indptr ++ List.replicate (o - m.outer_dims)
          (m.indptr.getLast?.getD 0)) ++ [m.indptr.getLast?.getD 0 + 1] ∧
    (m.insert_outer_inner o i v).indices = m.indices ++ [i] ∧
    (m.insert_outer_inner o i v).data = m.data ++ [v] ∧
    (m.insert_outer_inner o i v).outer_dims = o + 1 ∧
    (m.insert_outer_inner o i v).inner_dims = max m.inner_dims (i + 1) := by
  obtain ⟨st, nr, nc, ip, ix, dt⟩ := m
  simp only [CsMat.insert_outer_inner, CsMat.set_outer_dims,
    CsMat.set_inner_dims, CsMat.outer_dims, CsMat.inner_dims,
    outer_dimension, inner_dimension] at ho ⊢
  cases st
  case CSR =>
    rw [if_pos ho]
    by_cases hfix : i ≥ nc
    · rw [if_pos hfix]
      exact ⟨rfl, rfl, rfl, rfl, rfl, by dsimp only; omega⟩
    · rw [if_neg hfix]
      exact ⟨rfl, rfl, rfl, rfl, rfl, by dsimp only; omega⟩
  case CSC =>
    rw [if_pos ho]
    by_cases hfix : i ≥ nr
    · rw [if_pos hfix]
      exact ⟨rfl, rfl, rfl, rfl, rfl, by dsimp only; omega⟩
    · rw [if_neg hfix]
      exact ⟨rfl, rfl, rfl, rfl, rfl, by dsimp only; omega⟩

theorem insertOk_eq {N : Type} (m : CsMat N) (o i : Nat) (v : N) {pos : Nat}
    (ho : o < m.outer_dims)
    (hbs : rustBinarySearch (sliceRange m.indices (m.indptr.getD o 0)
      (m.indptr.getD (o + 1) 0)) i = Except.ok pos) :
    m.insert_outer_inner o i v
      = { m with data := m.data.set (m.indptr.getD o 0 + pos) v } := by
  obtain ⟨st, nr, nc, ip, ix, dt⟩ := m
  simp only [CsMat.insert_outer_inner, CsMat.outer_dims,
    outer_dimension] at ho ⊢
  cases st
  case CSR =>
    rw [if_neg (by omega), hbs]
  case CSC =>
    rw [if_neg (by omega), hbs]

theorem insertErr_eq {N : Type} (m : CsMat N) (o i : Nat) (v : N) {pos : Nat}
    (ho : o < m.outer_dims)
    (hbs : rustBinarySearch (sliceRange m.indices (m.indptr.getD o 0)
      (m.indptr.getD (o + 1) 0)) i = Except.error pos) :
    (m.insert_outer_inner o i v).storage = m.storage ∧
    (m.insert_outer_inner o i v).indptr
      = m.indptr.mapIdx (fun k x =>
          if o + 1 ≤ k ∧ k < m.outer_dims + 1 then x + 1 else x) ∧
    (m.insert_outer_inner o i v).indices
      = listInsertAt m.indices (m.indptr.getD o 0 + pos) i ∧
    (m.insert_outer_inner o i v).data
      = listInsertAt m.data (m.indptr.getD o 0 + pos) v ∧
    (m.insert_outer_inner o i v).outer_dims = m.outer_dims ∧
    (m.insert_outer_inner o i v).inner_dims = max m.inner_dims (i + 1) := by
  obtain ⟨st, nr, nc, ip, ix, dt⟩ := m
  simp only [CsMat.insert_outer_inner, CsMat.set_outer_dims,
    CsMat.set_inner_dims, CsMat.outer_dims, CsMat.inner_dims,
    outer_dimension, inner_dimension, listInsertAt] at ho ⊢
  cases st
  case CSR =>
    rw [if_neg (by omega), hbs]
    dsimp only
    by_cases hfix : i ≥ nc
    · rw [if_pos hfix]
      exact ⟨rfl, rfl, rfl, rfl, rfl, by dsimp only; omega⟩
    · rw [if_neg hfix]
      exact ⟨rfl, rfl, rfl, rfl, rfl, by dsimp only; omega⟩
  case CSC =>
    rw [if_neg (by omega), hbs]
    dsimp only
    by_cases hfix : i ≥ nr
    · rw [if_pos hfix]
      exact ⟨rfl, rfl, rfl, rfl, rfl, by dsimp only; omega⟩
    · rw [if_neg hfix]
      exact ⟨rfl, rfl, rfl, rfl, rfl, by dsimp only; omega⟩

theorem insert_char_A {N : Type} (m : CsMat N) (hso : structOk m)
    (o i : Nat) (v : N) (hA : m.outer_dims ≤ o) :
    InsertConcl m (m.insert_outer_inner o i v) o i v := by
  obtain ⟨hIlen, hch, hlast, hdlen, hslices⟩ := hso
  obtain ⟨hst, hip, hix, hdt, hod, hid⟩ := insertA_eq m o i v hA
  rw [hlast] at hip
  have hplen : (m.indptr ++ List.replicate (o - m.outer_dims)
      m.indices.length).length = o + 1 := by
    rw [List.length_append, hIlen, List.length_replicate]
    omega
  have hgdlast : m.indptr.getD m.outer_dims 0 = m.indices.length := by
    have hd1 : m.indptr.length - 1 = m.outer_dims := by omega
    rw [List.getD_eq_getElem?_getD, ← hlast, getLast_getD_eq_getElem?, hd1]
  have hgdA : ∀ k, ((m.indptr ++ List.replicate (o - m.outer_dims)
        m.indices.length) ++ [m.indices.length + 1]).getD k 0
      = if k < m.outer_dims + 1 then m.indptr.getD k 0
        else if k < o + 1 then m.indices.length
        else if k = o + 1 then m.indices.length + 1 else 0 := by
    intro k
    rw [List.getD_eq_getElem?_getD, List.getElem?_append]
    by_cases h1 : k < o + 1
    · rw [if_pos (by rw [hplen]; omega), List.getElem?_append]
      by_cases h2 : k < m.outer_dims + 1
      · rw [if_pos (by rw [hIlen]; omega), if_pos h2,
          List.getD_eq_getElem?_getD]
      · rw [if_neg (by rw [hIlen]; omega), List.getElem?_replicate,
          if_pos (by rw [hIlen]; omega), if_neg h2, if_pos h1]
        rfl
    · rw [if_neg (by rw [hplen]; omega)]
      by_cases h3 : k = o + 1
      · subst h3
        rw [show o + 1 - (m.indptr ++ List.replicate (o - m.outer_dims)
            m.indices.length).length = 0 by rw [hplen]; omega]
        rw [if_neg (by omega), if_neg (by omega), if_pos rfl]
        rfl
      · rw [List.getElem?_eq_none (by simp [hplen]; omega)]
        rw [if_neg (by omega), if_neg h1, if_neg h3]
        rfl
  have hgo : ((m.indptr ++ List.replicate (o - m.outer_dims)
        m.indices.length) ++ [m.indices.length + 1]).getD o 0
      = m.indices.length := by
    rw [hgdA]
    by_cases h : o < m.outer_dims + 1
    · rw [if_pos h, show o = m.outer_dims by omega, hgdlast]
    · rw [if_neg h, if_pos (by omega)]
  have hgo1 : ((m.indptr ++ List.replicate (o - m.outer_dims)
        m.indices.length) ++ [m.indices.length + 1]).getD (o + 1) 0
      = m.indices.length + 1 := by
    rw [hgdA, if_neg (by omega), if_neg (by omega), if_pos rfl]
  have hsloI : sliceRange (m.insert_outer_inner o i v).indices
      ((m.insert_outer_inner o i v).indptr.getD o 0)
      ((m.insert_outer_inner o i v).indptr.getD (o + 1) 0) = [i] := by
    rw [hip, hix, hgo, hgo1, sliceRange_concat_last]
  have hsloD : sliceRange (m.insert_outer_inner o i v).data
      ((m.insert_outer_inner o i v).indptr.getD o 0)
      ((m.insert_outer_inner o i v).indptr.getD (o + 1) 0) = [v] := by
    rw [hip, hdt, hgo, hgo1, ← hdlen, sliceRange_concat_last]
  have hnnz : (m.insert_outer_inner o i v).nnz = m.indices.length + 1 := by
    unfold CsMat.nnz
    rw [hip, List.getLast?_concat]
    rfl
  refine ⟨⟨?_, ?_, ?_, ?_, ?_⟩, hst, by rw [hod]; omega, hid, ?_, ?_, ?_⟩
  · rw [hip, hod, List.length_append, hplen]
    rfl
  · rw [hip, chain'_le_iff_getD]
    intro k hk
    rw [List.length_append, hplen, List.length_singleton] at hk
    rw [hgdA k, hgdA (k + 1)]
    by_cases c1 : k + 1 < m.outer_dims + 1
    · rw [if_pos (by omega), if_pos c1]
      exact chain'_le_getD m.indptr hch (by omega) (by rw [hIlen]; omega)
    · by_cases c2 : k < m.outer_dims + 1
      · rw [if_pos c2, if_neg c1]
        have hb : m.indptr.getD k 0 ≤ m.indices.length := by
          rw [← hlast]
          exact chain'_mem_le_getLast hch (getD_mem' (by rw [hIlen]; omega) 0)
        split_ifs <;> omega
      · rw [if_neg c2, if_neg c1]
        split_ifs <;> omega
  · rw [hip, hix, List.getLast?_concat, List.length_append]
    rfl
  · rw [hdt, hix, List.length_append, List.length_append, hdlen]
    rfl
  · intro o' ho'
    rw [hod] at ho'
    unfold CsMat.sliceI
    rw [hid]
    by_cases co : o' < m.outer_dims
    · rw [hip, hix, hgdA o', hgdA (o' + 1), if_pos (by omega),
        if_pos (by omega)]
      rw [sliceRange_append_frozen
        (chain'_le_getD m.indptr hch (by omega) (by rw [hIlen]; omega))
        (by
          rw [← hlast]
          exact chain'_mem_le_getLast hch
            (getD_mem' (by rw [hIlen]; omega) 0))]
      refine ⟨(hslices o' co).1, fun x hx => ?_⟩
      exact Nat.lt_of_lt_of_le ((hslices o' co).2 x hx)
        (Nat.le_max_left _ _)
    · by_cases ceq : o' = o
      · subst ceq
        rw [hsloI]
        refine ⟨List.chain'_singleton i, fun x hx => ?_⟩
        rw [List.mem_singleton] at hx
        subst hx
        omega
      · have hg1 : ((m.indptr ++ List.replicate (o - m.outer_dims)
            m.indices.length) ++ [m.indices.length + 1]).getD o' 0
            = m.indices.length := by
          rw [hgdA]
          by_cases h : o' < m.outer_dims + 1
          · rw [if_pos h, show o' = m.outer_dims by omega, hgdlast]
          · rw [if_neg h, if_pos (by omega)]
        have hg2 : ((m.indptr ++ List.replicate (o - m.outer_dims)
            m.indices.length) ++ [m.indices.length + 1]).getD (o' + 1) 0
            = m.indices.length := by
          rw [hgdA, if_neg (by omega), if_pos (by omega)]
        rw [hip, hix, hg1, hg2, sliceRange_empty]
        refine ⟨List.chain'_nil, fun x hx => ?_⟩
        cases hx
  · unfold CsMat.sliceI
    rw [hsloI]
    simp
  · unfold CsMat.get_outer_inner CsMat.outer_view
    rw [if_pos (show o < (m.insert_outer_inner o i v).outer_dims by
      rw [hod]; omega), Option.some_bind]
    rw [hsloI, hsloD]
    exact CsVec_get_of_mem (by simp) (by simp)
  · rw [hnnz, if_neg (by rintro ⟨hc, -⟩; omega)]
    unfold CsMat.nnz
    rw [hlast]

theorem insert_char_Ok {N : Type} (m : CsMat N) (hso : structOk m)
    (o i : Nat) (v : N) (ho : o < m.outer_dims) {pos : Nat}
    (hbs : rustBinarySearch (sliceRange m.indices (m.indptr.getD o 0)
      (m.indptr.getD (o + 1) 0)) i = Except.ok pos) :
    InsertConcl m (m.insert_outer_inner o i v) o i v := by
  obtain ⟨hIlen, hch, hlast, hdlen, hslices⟩ := hso
  have heq := insertOk_eq m o i v ho hbs
  have hfound : (sliceRange m.indices (m.indptr.getD o 0)
      (m.indptr.getD (o + 1) 0))[pos]? = some i ∧
      pos < (sliceRange m.indices (m.indptr.getD o 0)
        (m.indptr.getD (o + 1) 0)).length := by
    rcases rustBinarySearch_cases (l := sliceRange m.indices
        (m.indptr.getD o 0) (m.indptr.getD (o + 1) 0)) (x := i) with
      ⟨k, hk, hkl, hke⟩ | ⟨-, herr⟩
    · have h2 := hk.symm.trans hbs
      injection h2 with h3
      subst h3
      exact ⟨hke, hkl⟩
    · exact Except.noConfusion (hbs.symm.trans herr)
  have hp1le : m.indptr.getD (o + 1) 0 ≤ m.indices.length := by
    rw [← hlast]
    exact chain'_mem_le_getLast hch (getD_mem' (by rw [hIlen]; omega) 0)
  have hposlt : m.indptr.getD o 0 + pos < m.indptr.getD (o + 1) 0 := by
    have hl := hfound.2
    rw [sliceRange_length] at hl
    omega
  have hdslice : sliceRange (m.data.set (m.indptr.getD o 0 + pos) v)
      (m.indptr.getD o 0) (m.indptr.getD (o + 1) 0)
      = (sliceRange m.data (m.indptr.getD o 0)
          (m.indptr.getD (o + 1) 0)).set pos v :=
    sliceRange_set_within hposlt (by rw [hdlen]; exact hp1le)
  have hip : (m.insert_outer_inner o i v).indptr = m.indptr := by rw [heq]
  have hixm : (m.insert_outer_inner o i v).indices = m.indices := by rw [heq]
  have hst : (m.insert_outer_inner o i v).storage = m.storage := by rw [heq]
  have hdt : (m.insert_outer_inner o i v).data
      = m.data.set (m.indptr.getD o 0 + pos) v := by rw [heq]
  have hod : (m.insert_outer_inner o i v).outer_dims = m.outer_dims := by
    unfold CsMat.outer_dims
    rw [heq]
  have hid : (m.insert_outer_inner o i v).inner_dims = m.inner_dims := by
    unfold CsMat.inner_dims
    rw [heq]
  have hslI : ∀ t, (m.insert_outer_inner o i v).sliceI t = m.sliceI t := by
    intro t
    unfold CsMat.sliceI
    rw [hip, hixm]
  have himem : i ∈ m.sliceI o := by
    unfold CsMat.sliceI
    exact List.getElem?_mem hfound.1
  have hilt : i < m.inner_dims := (hslices o ho).2 i himem
  have hv : CsVec.get_ ⟨m.inner_dims,
      sliceRange m.indices (m.indptr.getD o 0) (m.indptr.getD (o + 1) 0),
      (sliceRange m.data (m.indptr.getD o 0)
        (m.indptr.getD (o + 1) 0)).set pos v⟩ i = some v := by
    unfold CsVec.get_
    dsimp only
    rw [hbs]
    show ((sliceRange m.data (m.indptr.getD o 0)
      (m.indptr.getD (o + 1) 0)).set pos v)[pos]? = some v
    rw [List.getElem?_set]
    rw [if_pos rfl, if_pos (by rw [sliceRange_length, hdlen]; omega)]
  refine ⟨⟨?_, ?_, ?_, ?_, ?_⟩, hst, by rw [hod]; omega, by rw [hid]; omega,
    ?_, ?_, ?_⟩
  · rw [hip, hod]
    exact hIlen
  · rw [hip]
    exact hch
  · rw [hip, hixm]
    exact hlast
  · rw [hdt, hixm, List.length_set]
    exact hdlen
  · intro t ht
    rw [hod] at ht
    rw [hslI t, hid]
    exact hslices t ht
  · rw [hslI o]
    exact himem
  · unfold CsMat.get_outer_inner CsMat.outer_view
    rw [if_pos (show o < (m.insert_outer_inner o i v).outer_dims by
      rw [hod]; exact ho), Option.some_bind]
    rw [hip, hixm, hdt, hid, hdslice]
    exact hv
  · rw [if_pos ⟨ho, himem⟩]
    unfold CsMat.nnz
    rw [hip]

theorem insert_char_Err {N : Type} (m : CsMat N) (hso : structOk m)
    (o i : Nat) (v : N) (ho : o < m.outer_dims) {pos : Nat}
    (hbs : rustBinarySearch (sliceRange m.indices (m.indptr.getD o 0)
      (m.indptr.getD (o + 1) 0)) i = Except.error pos) :
    InsertConcl m (m.insert_outer_inner o i v) o i v := by
  obtain ⟨hIlen, hch, hlast, hdlen, hslices⟩ := hso
  obtain ⟨hst, hip, hix, hdt, hod, hid⟩ := insertErr_eq m o i v ho hbs
  have hcases : i ∉ sliceRange m.indices (m.indptr.getD o 0)
      (m.indptr.getD (o + 1) 0) ∧
      pos = (sliceRange m.indices (m.indptr.getD o 0)
        (m.indptr.getD (o + 1) 0)).countP fun y => decide (y < i) := by
    rcases rustBinarySearch_cases (l := sliceRange m.indices
        (m.indptr.getD o 0) (m.indptr.getD (o + 1) 0)) (x := i) with
      ⟨k, hk, -, -⟩ | ⟨hnm, herr⟩
    · exact Except.noConfusion (hk.symm.trans hbs)
    · have h2 := herr.symm.trans hbs
      injection h2 with h3
      exact ⟨hnm, h3.symm⟩
  obtain ⟨hnm, hpos⟩ := hcases
  have hgdlast : m.indptr.getD m.outer_dims 0 = m.indices.length := by
    have hd1 : m.indptr.length - 1 = m.outer_dims := by omega
    rw [List.getD_eq_getElem?_getD, ← hlast, getLast_getD_eq_getElem?, hd1]
  have hp0p1 : m.indptr.getD o 0 ≤ m.indptr.getD (o + 1) 0 :=
    chain'_le_getD m.indptr hch (Nat.le_succ o) (by rw [hIlen]; omega)
  have hp1le : m.indptr.getD (o + 1) 0 ≤ m.indices.length := by
    rw [← hlast]
    exact chain'_mem_le_getLast hch (getD_mem' (by rw [hIlen]; omega) 0)
  have hSlen : (sliceRange m.indices (m.indptr.getD o 0)
      (m.indptr.getD (o + 1) 0)).length
      = m.indptr.getD (o + 1) 0 - m.indptr.getD o 0 :=
    sliceRange_length_of_le _ _ _ hp0p1 hp1le
  have hSDlen : (sliceRange m.data (m.indptr.getD o 0)
      (m.indptr.getD (o + 1) 0)).length
      = m.indptr.getD (o + 1) 0 - m.indptr.getD o 0 :=
    sliceRange_length_of_le _ _ _ hp0p1 (by rw [hdlen]; exact hp1le)
  have hppos : m.indptr.getD o 0 + pos ≤ m.indptr.getD (o + 1) 0 := by
    have hc : pos ≤ (sliceRange m.indices (m.indptr.getD o 0)
        (m.indptr.getD (o + 1) 0)).length := by
      rw [hpos]
      exact List.countP_le_length _
    rw [hSlen] at hc
    omega
  have hplen2 : m.indptr.getD o 0 + pos ≤ m.indices.length := by omega
  have hgdE : ∀ k, (m.insert_outer_inner o i v).indptr.getD k 0
      = if o + 1 ≤ k ∧ k < m.outer_dims + 1 then m.indptr.getD k 0 + 1
        else m.indptr.getD k 0 := by
    intro k
    rw [hip]
    by_cases hk : k < m.indptr.length
    · rw [List.getD_eq_getElem?_getD, List.getElem?_mapIdx,
        List.getElem?_eq_getElem hk, Option.map_some', Option.getD_some,
        List.getD_eq_getElem?_getD, List.getElem?_eq_getElem hk,
        Option.getD_some]
    · rw [List.getD_eq_getElem?_getD,
        List.getElem?_eq_none (by rw [List.length_mapIdx]; omega),
        if_neg (by rw [hIlen] at hk; omega), List.getD_eq_getElem?_getD,
        List.getElem?_eq_none (by omega)]
  have hlen' : (m.insert_outer_inner o i v).indptr.length
      = m.outer_dims + 1 := by
    rw [hip, List.length_mapIdx]
    exact hIlen
  have hslO : sliceRange (listInsertAt m.indices (m.indptr.getD o 0 + pos) i)
      (m.indptr.getD o 0) (m.indptr.getD (o + 1) 0 + 1)
      = listInsertAt (sliceRange m.indices (m.indptr.getD o 0)
          (m.indptr.getD (o + 1) 0)) pos i := by
    have h := sliceRange_insertAt_mid (l := m.indices)
      (p := m.indptr.getD o 0 + pos) (a := m.indptr.getD o 0)
      (b := m.indptr.getD (o + 1) 0) (x := i)
      (Nat.le_add_right _ _) hppos hp1le
    rwa [Nat.add_sub_cancel_left] at h
  have hslOD : sliceRange (listInsertAt m.data (m.indptr.getD o 0 + pos) v)
      (m.indptr.getD o 0) (m.indptr.getD (o + 1) 0 + 1)
      = listInsertAt (sliceRange m.data (m.indptr.getD o 0)
          (m.indptr.getD (o + 1) 0)) pos v := by
    have h := sliceRange_insertAt_mid (l := m.data)
      (p := m.indptr.getD o 0 + pos) (a := m.indptr.getD o 0)
      (b := m.indptr.getD (o + 1) 0) (x := v)
      (Nat.le_add_right _ _) hppos (by rw [hdlen]; exact hp1le)
    rwa [Nat.add_sub_cancel_left] at h
  have hmemzip : (i, v) ∈ (listInsertAt (sliceRange m.indices
        (m.indptr.getD o 0) (m.indptr.getD (o + 1) 0)) pos i).zip
      (listInsertAt (sliceRange m.data (m.indptr.getD o 0)
        (m.indptr.getD (o + 1) 0)) pos v) := by
    unfold listInsertAt
    rw [List.zip_append
      (by rw [List.length_take, List.length_take, hSlen, hSDlen]),
      List.zip_cons_cons]
    exact List.mem_append_right _ (List.mem_cons_self _ _)
  refine ⟨⟨?_, ?_, ?_, ?_, ?_⟩, hst, by rw [hod]; omega, hid, ?_, ?_, ?_⟩
  · rw [hlen', hod]
  · rw [chain'_le_iff_getD]
    intro k hk
    rw [hlen'] at hk
    rw [hgdE k, hgdE (k + 1)]
    have hold := chain'_le_getD m.indptr hch (show k ≤ k + 1 by omega)
      (by rw [hIlen]; omega)
    split_ifs <;> omega
  · rw [getLast_getD_eq_getElem?, ← List.getD_eq_getElem?_getD, hlen',
      Nat.add_sub_cancel, hgdE, if_pos (by omega), hgdlast, hix,
      listInsertAt_length hplen2]
  · rw [hdt, hix, listInsertAt_length (by rw [hdlen]; exact hplen2),
      listInsertAt_length hplen2, hdlen]
  · intro t ht
    rw [hod] at ht
    unfold CsMat.sliceI
    rw [hix, hid, hgdE t, hgdE (t + 1)]
    rcases Nat.lt_trichotomy t o with h1 | h1 | h1
    · rw [if_neg (by omega), if_neg (by omega)]
      have hb : m.indptr.getD (t + 1) 0 ≤ m.indptr.getD o 0 + pos :=
        le_trans (chain'_le_getD m.indptr hch (by omega)
          (by rw [hIlen]; omega)) (Nat.le_add_right _ _)
      rw [sliceRange_insertAt_high
        (chain'_le_getD m.indptr hch (Nat.le_succ t) (by rw [hIlen]; omega))
        hb hplen2]
      exact ⟨(hslices t ht).1, fun x hx =>
        lt_of_lt_of_le ((hslices t ht).2 x hx) (Nat.le_max_left _ _)⟩
    · subst h1
      rw [if_neg (by omega), if_pos (by omega), hslO]
      constructor
      · rw [hpos]
        exact chain'_insertAt_sorted (hslices t ht).1 hnm
      · intro x hx
        rcases mem_of_mem_listInsertAt hx with rfl | hx2
        · exact Nat.lt_of_lt_of_le (Nat.lt_succ_self x) (Nat.le_max_right _ _)
        · exact lt_of_lt_of_le ((hslices t ht).2 x hx2) (Nat.le_max_left _ _)
    · rw [if_pos (by omega), if_pos (by omega)]
      have hpa : m.indptr.getD o 0 + pos ≤ m.indptr.getD t 0 :=
        le_trans hppos (chain'_le_getD m.indptr hch (by omega)
          (by rw [hIlen]; omega))
      rw [sliceRange_insertAt_low hpa hplen2]
      exact ⟨(hslices t ht).1, fun x hx =>
        lt_of_lt_of_le ((hslices t ht).2 x hx) (Nat.le_max_left _ _)⟩
  · unfold CsMat.sliceI
    rw [hix, hgdE o, if_neg (by omega), hgdE (o + 1), if_pos (by omega), hslO]
    exact mem_listInsertAt_self _ _ _
  · unfold CsMat.get_outer_inner CsMat.outer_view
    rw [if_pos (show o < (m.insert_outer_inner o i v).outer_dims by
      rw [hod]; exact ho), Option.some_bind]
    rw [hix, hdt, hgdE o, if_neg (by omega), hgdE (o + 1), if_pos (by omega),
      hslO, hslOD]
    refine CsVec_get_of_mem ?_ hmemzip
    rw [hpos]
    exact nodup_of_chain'_lt (chain'_insertAt_sorted (hslices o ho).1 hnm)
  · rw [if_neg (fun hcon => hnm hcon.2)]
    unfold CsMat.nnz
    rw [getLast_getD_eq_getElem?, ← List.getD_eq_getElem?_getD, hlen',
      Nat.add_sub_cancel, hgdE, if_pos (by omega), hgdlast, hlast]

/-- Full characterization of `insert_outer_inner` on a structurally sound
matrix, by cases on the three paths of the code (append a fresh outer
slice, overwrite a present position, splice a new position into an
existing slice). -/
theorem insert_outer_inner_char {N : Type} (m : CsMat N) (hso : structOk m)
    (o i : Nat) (v : N) :
    InsertConcl m (m.insert_outer_inner o i v) o i v := by
  by_cases hA : m.outer_dims ≤ o
  · exact insert_char_A m hso o i v hA
  · push_neg at hA
    cases hbs : rustBinarySearch (sliceRange m.indices (m.indptr.getD o 0)
        (m.indptr.getD (o + 1) 0)) i with
    | ok pos => exact insert_char_Ok m hso o i v hA hbs
    | error pos => exact insert_char_Err m hso o i v hA hbs

/-- `insert` is `insert_outer_inner` at the storage-dispatched outer and
inner coordinates. -/
theorem insert_eq_oi {N : Type} (m : CsMat N) (r c : Nat) (v : N) :
    m.insert r c v = m.insert_outer_inner (outer_dimension m.storage r c)
      (inner_dimension m.storage r c) v := by
  unfold CsMat.insert
  cases m.storage <;> rfl

/-- `get` is `get_outer_inner` at the storage-dispatched outer and inner
coordinates. -/
theorem get_eq_oi {N : Type} (m : CsMat N) (r c : Nat) :
    m.get r c = m.get_outer_inner (outer_dimension m.storage r c)
      (inner_dimension m.storage r c) := by
  unfold CsMat.get
  cases m.storage <;> rfl

/-! ### Lemmas for the storage conversion (counting-sort transpose) -/

theorem sliceRange_set_outside {l : List α} {q a b : Nat} {x : α}
    (h : q < a ∨ b ≤ q) : sliceRange (l.set q x) a b = sliceRange l a b := by
  refine List.ext_getElem? fun t => ?_
  rw [sliceRange_getElem?, sliceRange_getElem?]
  by_cases ht : t < b - a
  · rw [if_pos ht, if_pos ht, List.getElem?_set, if_neg (by omega)]
  · rw [if_neg ht, if_neg ht]

theorem sliceRange_set_snoc {l : List α} {a k : Nat} {x : α}
    (h : a + k < l.length) :
    sliceRange (l.set (a + k) x) a (a + k + 1)
      = sliceRange l a (a + k) ++ [x] := by
  refine List.ext_getElem? fun t => ?_
  have hsl : (sliceRange l a (a + k)).length = k := by
    rw [sliceRange_length]
    omega
  rw [sliceRange_getElem?, List.getElem?_append, hsl]
  by_cases h1 : t < k
  · rw [if_pos (by omega), if_pos h1, List.getElem?_set, if_neg (by omega),
      sliceRange_getElem?, if_pos (by omega)]
  · by_cases h2 : t = k
    · subst h2
      rw [if_pos (by omega), if_neg (by omega), List.getElem?_set,
        if_pos rfl, if_pos h, Nat.sub_self]
      rfl
    · rw [if_neg (by omega), if_neg (by omega),
        List.getElem?_eq_none (by simp; omega)]

theorem bucket_append {β : Type} (j : Nat) (p q : List (Nat × Nat × β)) :
    bucket j (p ++ q) = bucket j p ++ bucket j q := by
  unfold bucket
  rw [List.filter_append, List.map_append]

theorem bucket_length_countP {β : Type} (j : Nat) (p : List (Nat × Nat × β)) :
    (bucket j p).length = p.countP fun e => decide (e.2.1 = j) := by
  unfold bucket
  rw [List.length_map, List.countP_eq_length_filter]

theorem startOf_succ {β : Type} (j : Nat) (es : List (Nat × Nat × β)) :
    startOf (j + 1) es = startOf j es + (bucket j es).length := by
  unfold startOf
  rw [List.range_succ, List.map_append, List.sum_append]
  simp

theorem startOf_mono {β : Type} (es : List (Nat × Nat × β)) {j j' : Nat}
    (h : j ≤ j') : startOf j es ≤ startOf j' es := by
  induction j' with
  | zero =>
    have hj : j = 0 := by omega
    subst hj
    exact Nat.le_refl _
  | succ n ih =>
    by_cases hj : j ≤ n
    · refine le_trans (ih hj) ?_
      rw [startOf_succ]
      omega
    · have hj2 : j = n + 1 := by omega
      subst hj2
      exact Nat.le_refl _

theorem getD_set_eq {l : List α} {i : Nat} (h : i < l.length) (x d : α) :
    (l.set i x).getD i d = x := by
  rw [List.getD_eq_getElem?_getD, List.getElem?_set, if_pos rfl, if_pos h]
  rfl

theorem getD_set_ne {l : List α} {i j : Nat} (h : i ≠ j) (x d : α) :
    (l.set i x).getD j d = l.getD j d := by
  rw [List.getD_eq_getElem?_getD, List.getElem?_set, if_neg h,
    List.getD_eq_getElem?_getD]

theorem sum_map_add (l : List Nat) (f g : Nat → Nat) :
    (l.map fun k => f k + g k).sum = (l.map f).sum + (l.map g).sum := by
  induction l with
  | nil => rfl
  | cons a t ih =>
    simp only [List.map_cons, List.sum_cons, ih]
    omega

theorem sum_indicator {c d : Nat} (h : c < d) :
    ((List.range d).map fun k => if c = k then 1 else 0).sum = 1 := by
  induction d with
  | zero => omega
  | succ n ih =>
    rw [List.range_succ, List.map_append, List.sum_append]
    by_cases hc : c < n
    · rw [ih hc]
      simp [Nat.ne_of_lt hc]
    · have hcn : c = n := by omega
      subst hcn
      rw [List.sum_eq_zero fun x hx => ?_]
      · simp
      · rcases List.mem_map.1 hx with ⟨k, hk, rfl⟩
        rw [if_neg (by rw [List.mem_range] at hk; omega)]

theorem bucket_cons_length {β : Type} (k : Nat) (e : Nat × Nat × β)
    (t : List (Nat × Nat × β)) :
    (bucket k (e :: t)).length
      = (if e.2.1 = k then 1 else 0) + (bucket k t).length := by
  unfold bucket
  rw [List.filter_cons]
  by_cases he : e.2.1 = k
  · rw [if_pos (by simpa using he), if_pos he]
    simp only [List.map_cons, List.length_cons, List.length_map]
    omega
  · rw [if_neg (by simpa using he), if_neg he]
    simp

theorem startOf_total {β : Type} (d : Nat) :
    ∀ es : List (Nat × Nat × β), (∀ e ∈ es, e.2.1 < d) →
      startOf d es = es.length := by
  intro es
  induction es with
  | nil =>
    intro _
    unfold startOf
    simp [bucket]
  | cons e t ih =>
    intro hbnd
    unfold startOf
    rw [List.map_congr_left fun k _ => bucket_cons_length k e t,
      sum_map_add]
    have h1 : ((List.range d).map fun k =>
        if e.2.1 = k then 1 else 0).sum = 1 :=
      sum_indicator (hbnd e (List.mem_cons_self _ _))
    have h2 := ih fun x hx => hbnd x (List.mem_cons_of_mem _ hx)
    unfold startOf at h2
    rw [h1, h2, List.length_cons]
    omega

theorem histFold_spec {β : Type} (es : List (Nat × Nat × β)) :
    ∀ ip : List Nat, (∀ e ∈ es, e.2.1 < ip.length) →
      (es.foldl (fun ip e => ip.set e.2.1 (ip.getD e.2.1 0 + 1)) ip).length
        = ip.length ∧
      ∀ j, (es.foldl (fun ip e => ip.set e.2.1 (ip.getD e.2.1 0 + 1))
            ip).getD j 0
          = ip.getD j 0 + es.countP fun e => decide (e.2.1 = j) := by
  induction es with
  | nil =>
    intro ip _
    exact ⟨rfl, fun j => by simp⟩
  | cons e t ih =>
    intro ip h
    have hmem : e.2.1 < ip.length := h e (List.mem_cons_self _ _)
    have hlen : (ip.set e.2.1 (ip.getD e.2.1 0 + 1)).length = ip.length := by
      rw [List.length_set]
    obtain ⟨ih1, ih2⟩ := ih (ip.set e.2.1 (ip.getD e.2.1 0 + 1))
      (fun x hx => by rw [hlen]; exact h x (List.mem_cons_of_mem _ hx))
    refine ⟨ih1.trans hlen, fun j => ?_⟩
    rw [List.foldl_cons, ih2 j, List.countP_cons]
    by_cases hej : e.2.1 = j
    · subst hej
      rw [getD_set_eq hmem, if_pos (by simp)]
      omega
    · rw [getD_set_ne hej, if_neg (by simpa using hej)]
      omega

theorem list_eq_range_map {l : List Nat} {n : Nat} (hl : l.length = n)
    {f : Nat → Nat} (h : ∀ k, k < n → l.getD k 0 = f k) :
    l = (List.range n).map f := by
  refine List.ext_getElem? fun t => ?_
  by_cases ht : t < n
  · have hv := h t ht
    rw [List.getD_eq_getElem?_getD,
      List.getElem?_eq_getElem (show t < l.length by omega),
      Option.getD_some] at hv
    rw [List.getElem?_eq_getElem (show t < l.length by omega),
      List.getElem?_map, List.getElem?_range ht, hv]
    rfl
  · rw [List.getElem?_eq_none (by omega),
      List.getElem?_eq_none (by simp; omega)]

theorem exclScan_eq_range_map :
    ∀ (l : List Nat) (c : Nat),
      exclScan c l = (List.range l.length).map fun j => c + (l.take j).sum := by
  intro l
  induction l with
  | nil => intro c; rfl
  | cons x xs ih =>
    intro c
    show c :: exclScan (c + x) xs = _
    rw [ih (c + x), List.length_cons, List.range_succ_eq_map,
      List.map_cons, List.map_map]
    refine List.cons_eq_cons.mpr ⟨by simp, ?_⟩
    refine List.map_congr_left fun j hj => ?_
    show c + x + (xs.take j).sum = c + ((x :: xs).take (j + 1)).sum
    rw [List.take_succ_cons, List.sum_cons]
    omega

theorem scanned_eq {β : Type} (es : List (Nat × Nat × β)) (d : Nat) :
    exclScan 0 ((List.range (d + 1)).map fun k =>
        es.countP fun e => decide (e.2.1 = k))
      = (List.range (d + 1)).map fun j => startOf j es := by
  rw [exclScan_eq_range_map, List.length_map, List.length_range]
  refine List.map_congr_left fun j hj => ?_
  rw [List.mem_range] at hj
  rw [← List.map_take, List.take_range, Nat.min_eq_left (by omega)]
  unfold startOf
  rw [List.map_congr_left fun k _ => (bucket_length_countP k es).symm]
  omega

theorem getD_last_eq (ip : List Nat) (n : Nat) (h : ip.length = n + 1) :
    ip.getD n 0 = ip.getLast?.getD 0 := by
  rw [getLast_getD_eq_getElem?, ← List.getD_eq_getElem?_getD, h,
    Nat.add_sub_cancel]

theorem entriesFrom_length {β : Type} :
    ∀ (vs : List (CsVec β)) (o : Nat),
      (entriesFrom o vs).length = (vs.map fun v => v.iter.length).sum := by
  intro vs
  induction vs with
  | nil => intro o; rfl
  | cons v t ih =>
    intro o
    show ((v.iter.map fun p => (o, p.1, p.2)) ++ entriesFrom (o + 1) t).length
      = _
    rw [List.length_append, List.length_map, ih (o + 1), List.map_cons,
      List.sum_cons]

theorem telescope_sum (ip : List Nat) (hch : List.Chain' (· ≤ ·) ip) :
    ∀ n, n < ip.length →
      ((List.range n).map fun k => ip.getD (k + 1) 0 - ip.getD k 0).sum
        = ip.getD n 0 - ip.getD 0 0 := by
  intro n
  induction n with
  | zero => intro _; simp
  | succ k ih =>
    intro hk
    rw [List.range_succ, List.map_append, List.sum_append, ih (by omega)]
    have h1 : ip.getD 0 0 ≤ ip.getD k 0 :=
      chain'_le_getD ip hch (by omega) (by omega)
    have h2 : ip.getD k 0 ≤ ip.getD (k + 1) 0 :=
      chain'_le_getD ip hch (by omega) hk
    simp only [List.map_cons, List.sum_cons, List.map_nil, List.sum_nil]
    omega

theorem entriesOI_length (m : CsMat N)
    (hIlen : m.indptr.length = m.outer_dims + 1)
    (hch : List.Chain' (· ≤ ·) m.indptr)
    (hlast : m.indptr.getLast?.getD 0 = m.indices.length)
    (hdlen : m.data.length = m.indices.length) :
    m.entriesOI.length = m.indices.length - m.indptr.getD 0 0 := by
  have hgdl : m.indptr.getD m.outer_dims 0 = m.indices.length := by
    rw [getD_last_eq m.indptr m.outer_dims hIlen, hlast]
  unfold CsMat.entriesOI
  rw [outerVecs_eq_range m hIlen, entriesFrom_length, List.map_map]
  have hpt : ∀ k ∈ List.range m.outer_dims,
      ((fun v : CsVec N => v.iter.length) ∘ fun o =>
        (⟨m.inner_dims, m.sliceI o, m.sliceD o⟩ : CsVec N)) k
      = m.indptr.getD (k + 1) 0 - m.indptr.getD k 0 := by
    intro k hk
    rw [List.mem_range] at hk
    show ((m.sliceI k).zip (m.sliceD k)).length = _
    rw [List.length_zip]
    unfold CsMat.sliceI CsMat.sliceD
    rw [sliceRange_length, sliceRange_length, hdlen]
    have hp01 : m.indptr.getD k 0 ≤ m.indptr.getD (k + 1) 0 :=
      chain'_le_getD m.indptr hch (by omega) (by omega)
    have hp1 : m.indptr.getD (k + 1) 0 ≤ m.indices.length := by
      rw [← hgdl]
      exact chain'_le_getD m.indptr hch (by omega) (by omega)
    omega
  rw [List.map_congr_left hpt,
    telescope_sum m.indptr hch m.outer_dims (by omega), hgdl]

theorem entriesFrom_outer_lb {β : Type} :
    ∀ (vs : List (CsVec β)) (o : Nat) (e : Nat × Nat × β),
      e ∈ entriesFrom o vs → o ≤ e.1 := by
  intro vs
  induction vs with
  | nil => intro o e he; cases he
  | cons v t ih =>
    intro o e he
    rcases List.mem_append.1 he with h1 | h2
    · rcases List.mem_map.1 h1 with ⟨p, hp, rfl⟩
      exact Nat.le_refl o
    · exact Nat.le_trans (by omega) (ih (o + 1) e h2)

theorem mem_entriesFrom {β : Type} :
    ∀ (vs : List (CsVec β)) (o : Nat) (e : Nat × Nat × β),
      e ∈ entriesFrom o vs ↔
        ∃ k v, vs[k]? = some v ∧ e.1 = o + k ∧ (e.2.1, e.2.2) ∈ v.iter := by
  intro vs
  induction vs with
  | nil =>
    intro o e
    constructor
    · intro h
      cases h
    · rintro ⟨k, v, hk, -, -⟩
      simp at hk
  | cons v t ih =>
    intro o e
    obtain ⟨e1, ei, ev⟩ := e
    constructor
    · intro he
      rcases List.mem_append.1 he with h1 | h2
      · rcases List.mem_map.1 h1 with ⟨p, hp, hpe⟩
        refine ⟨0, v, by simp, ?_, ?_⟩
        · rw [← hpe]
          simp
        · rw [← hpe] at *
          simpa using hp
      · rcases (ih (o + 1) (e1, ei, ev)).1 h2 with ⟨k, w, hk, ho, hm⟩
        exact ⟨k + 1, w, by simpa using hk, by simp at ho ⊢; omega, hm⟩
    · rintro ⟨k, w, hk, ho, hm⟩
      cases k with
      | zero =>
        rw [List.getElem?_cons_zero] at hk
        injection hk with hk
        subst hk
        refine List.mem_append.2 (Or.inl ?_)
        refine List.mem_map.2 ⟨(ei, ev), hm, ?_⟩
        simp at ho
        rw [ho]
      | succ n =>
        refine List.mem_append.2 (Or.inr ((ih (o + 1) (e1, ei, ev)).2
          ⟨n, w, by simpa using hk, by simp at ho ⊢; omega, hm⟩))

theorem iter_pairwise_fst {β : Type} (v : CsVec β)
    (h : List.Chain' (· < ·) v.indices) :
    List.Pairwise (fun p q => p.1 < q.1) v.iter := by
  unfold CsVec.iter
  have hp := List.pairwise_iff_getElem.1 (List.chain'_iff_pairwise.1 h)
  rw [List.pairwise_iff_getElem]
  intro s t hs ht hst
  have hs2 := hs
  have ht2 := ht
  rw [List.length_zip] at hs2 ht2
  have h1 := (List.getElem?_zip_eq_some.1 (List.getElem?_eq_getElem hs)).1
  have h2 := (List.getElem?_zip_eq_some.1 (List.getElem?_eq_getElem ht)).1
  rw [List.getElem?_eq_getElem (show s < v.indices.length by omega)] at h1
  rw [List.getElem?_eq_getElem (show t < v.indices.length by omega)] at h2
  injection h1 with h1
  injection h2 with h2
  rw [← h1, ← h2]
  exact hp s t (by omega) (by omega) hst

theorem entriesFrom_pairwise {β : Type} :
    ∀ (vs : List (CsVec β)) (o : Nat),
      (∀ v ∈ vs, List.Pairwise (fun p q => p.1 < q.1) v.iter) →
      List.Pairwise
        (fun e1 e2 => e1.1 < e2.1 ∨ e1.1 = e2.1 ∧ e1.2.1 < e2.2.1)
        (entriesFrom o vs) := by
  intro vs
  induction vs with
  | nil => intro o _; exact List.Pairwise.nil
  | cons v t ih =>
    intro o hvs
    refine List.pairwise_append.2 ⟨?_, ?_, ?_⟩
    · rw [List.pairwise_map]
      exact (hvs v (List.mem_cons_self _ _)).imp fun hpq => Or.inr ⟨rfl, hpq⟩
    · exact ih (o + 1) fun w hw => hvs w (List.mem_cons_of_mem _ hw)
    · intro a ha b hb
      rcases List.mem_map.1 ha with ⟨p, hp, rfl⟩
      exact Or.inl (Nat.lt_of_lt_of_le (by omega)
        (entriesFrom_outer_lb t (o + 1) b hb))

theorem bucket_sorted {β : Type} {es : List (Nat × Nat × β)}
    (hp : List.Pairwise
      (fun e1 e2 => e1.1 < e2.1 ∨ e1.1 = e2.1 ∧ e1.2.1 < e2.2.1) es)
    (j : Nat) : List.Pairwise (· < ·) ((bucket j es).map Prod.fst) := by
  unfold bucket
  rw [List.map_map, List.pairwise_map]
  refine (hp.filter _).imp_of_mem ?_
  intro a b ha hb hr
  have haj : a.2.1 = j := by simpa using (List.mem_filter.1 ha).2
  have hbj : b.2.1 = j := by simpa using (List.mem_filter.1 hb).2
  rcases hr with h | ⟨-, h⟩
  · exact h
  · omega

theorem entriesOI_pairwise (m : CsMat N)
    (hIlen : m.indptr.length = m.outer_dims + 1)
    (hslices : ∀ o < m.outer_dims,
      List.Chain' (· < ·) (m.sliceI o) ∧ ∀ i ∈ m.sliceI o, i < m.inner_dims) :
    List.Pairwise
      (fun e1 e2 => e1.1 < e2.1 ∨ e1.1 = e2.1 ∧ e1.2.1 < e2.2.1)
      m.entriesOI := by
  unfold CsMat.entriesOI
  apply entriesFrom_pairwise
  intro v hv
  rw [outerVecs_eq_range m hIlen] at hv
  rcases List.mem_map.1 hv with ⟨o, ho, rfl⟩
  exact iter_pairwise_fst _ (hslices o (List.mem_range.1 ho)).1

/-- On a structurally sound matrix, the stored nonzero triples are exactly
the positions where `get_outer_inner` returns a value. -/
theorem mem_entriesOI_iff_get (m : CsMat N) (hso : structOk m)
    (o i : Nat) (v : N) :
    (o, i, v) ∈ m.entriesOI ↔ m.get_outer_inner o i = some v := by
  obtain ⟨hIlen, hch, hlast, hdlen, hslices⟩ := hso
  unfold CsMat.entriesOI
  rw [mem_entriesFrom, outerVecs_eq_range m hIlen]
  constructor
  · rintro ⟨k, w, hk, ho, hm⟩
    rw [List.getElem?_map] at hk
    by_cases hkd : k < m.outer_dims
    · rw [List.getElem?_range hkd, Option.map_some'] at hk
      injection hk with hk
      subst hk
      have hok : o = k := by simpa using ho
      subst hok
      unfold CsMat.get_outer_inner CsMat.outer_view
      rw [if_pos hkd, Option.some_bind]
      exact CsVec_get_of_mem (nodup_of_chain'_lt (hslices o hkd).1) hm
    · rw [List.getElem?_eq_none (by simpa using (by omega : m.outer_dims ≤ k))]
        at hk
      simp at hk
  · intro hget
    unfold CsMat.get_outer_inner CsMat.outer_view at hget
    by_cases hod : o < m.outer_dims
    · rw [if_pos hod, Option.some_bind] at hget
      unfold CsVec.get_ at hget
      dsimp only at hget
      rcases rustBinarySearch_cases (l := sliceRange m.indices
          (m.indptr.getD o 0) (m.indptr.getD (o + 1) 0)) (x := i) with
        ⟨pos, hbs, hlt, hat⟩ | ⟨hnm, herr⟩
      · rw [hbs] at hget
        replace hget : (sliceRange m.data (m.indptr.getD o 0)
            (m.indptr.getD (o + 1) 0))[pos]? = some v := hget
        refine ⟨o, ⟨m.inner_dims, m.sliceI o, m.sliceD o⟩, ?_, by simp, ?_⟩
        · rw [List.getElem?_map, List.getElem?_range hod, Option.map_some']
        · exact List.getElem?_mem (List.getElem?_zip_eq_some.2 ⟨hat, hget⟩)
      · rw [herr] at hget
        exact Option.noConfusion
          (show (none : Option N) = some v from hget)
    · rw [if_neg hod] at hget
      exact Option.noConfusion (show (none : Option N) = some v from hget)

theorem scatter_step {N : Type} (d : Nat) (es p r : List (Nat × Nat × N))
    (e : Nat × Nat × N) (hsplit : es = p ++ e :: r)
    (hbnd : ∀ x ∈ es, x.2.1 < d)
    (st : List Nat × List Nat × List N) (hinv : ScatterInv d es p st) :
    ScatterInv d es (p ++ [e])
      (st.1.set e.2.1 (st.1.getD e.2.1 0 + 1),
       st.2.1.set (st.1.getD e.2.1 0) e.1,
       st.2.2.set (st.1.getD e.2.1 0) e.2.2) := by
  obtain ⟨hL1, hL2, hL3, hoff, hseg⟩ := hinv
  have hj0 : e.2.1 < d := hbnd e
    (by rw [hsplit]; exact List.mem_append_right _ (List.mem_cons_self _ _))
  have hcntlt : (p.countP fun x => decide (x.2.1 = e.2.1))
      < (bucket e.2.1 es).length := by
    rw [bucket_length_countP, hsplit, List.countP_append, List.countP_cons,
      if_pos (by simp)]
    omega
  have hstart1 : startOf e.2.1 es + (bucket e.2.1 es).length ≤ es.length := by
    rw [← startOf_succ]
    exact le_trans (startOf_mono es (by omega)) (Nat.le_of_eq
      (startOf_total d es hbnd))
  have hq : startOf e.2.1 es + (p.countP fun x => decide (x.2.1 = e.2.1))
      < es.length := by omega
  have hdest : st.1.getD e.2.1 0
      = startOf e.2.1 es + p.countP fun x => decide (x.2.1 = e.2.1) :=
    hoff e.2.1 (by omega)
  refine ⟨by rw [List.length_set]; exact hL1,
    by rw [List.length_set]; exact hL2,
    by rw [List.length_set]; exact hL3, ?_, ?_⟩
  · intro j hj
    by_cases hjj : e.2.1 = j
    · subst hjj
      rw [getD_set_eq (by rw [hL1]; omega), hdest, List.countP_append]
      have h1 : (List.countP (fun x => decide (x.2.1 = e.2.1)) [e]) = 1 := by
        simp
      rw [h1]
      omega
    · rw [getD_set_ne hjj, hoff j hj, List.countP_append]
      have h0 : (List.countP (fun x => decide (x.2.1 = j)) [e]) = 0 := by
        simp [hjj]
      rw [h0]
      omega
  · intro j hj
    by_cases hjj : e.2.1 = j
    · subst hjj
      have hc1 : (List.countP (fun x => decide (x.2.1 = e.2.1)) (p ++ [e]))
          = (List.countP (fun x => decide (x.2.1 = e.2.1)) p) + 1 := by
        rw [List.countP_append]
        simp
      constructor
      · rw [hdest, hc1, ← Nat.add_assoc,
          sliceRange_set_snoc (by rw [hL2]; exact hq), (hseg e.2.1 hj).1,
          bucket_append, List.map_append]
        simp [bucket]
      · rw [hdest, hc1, ← Nat.add_assoc,
          sliceRange_set_snoc (by rw [hL3]; exact hq), (hseg e.2.1 hj).2,
          bucket_append, List.map_append]
        simp [bucket]
    · have hout : st.1.getD e.2.1 0 < startOf j es ∨
          startOf j es + (List.countP (fun x => decide (x.2.1 = j)) p)
            ≤ st.1.getD e.2.1 0 := by
        rw [hdest]
        rcases Nat.lt_or_ge e.2.1 j with h | h
        · left
          have h1 := startOf_mono es (show e.2.1 + 1 ≤ j by omega)
          rw [startOf_succ] at h1
          omega
        · right
          have h1 := startOf_mono es (show j + 1 ≤ e.2.1 by omega)
          rw [startOf_succ, bucket_length_countP] at h1
          have h2 : (List.countP (fun x => decide (x.2.1 = j)) p)
              ≤ List.countP (fun x => decide (x.2.1 = j)) es := by
            rw [hsplit, List.countP_append]
            omega
          omega
      have h0 : (List.countP (fun x => decide (x.2.1 = j)) (p ++ [e]))
          = List.countP (fun x => decide (x.2.1 = j)) p := by
        rw [List.countP_append]
        simp [hjj]
      have hb0 : bucket j [e] = [] := by
        simp [bucket, hjj]
      constructor
      · rw [h0, sliceRange_set_outside hout, bucket_append, hb0,
          List.append_nil]
        exact (hseg j hj).1
      · rw [h0, sliceRange_set_outside hout, bucket_append, hb0,
          List.append_nil]
        exact (hseg j hj).2

theorem scatter_fold {N : Type} (d : Nat) (es : List (Nat × Nat × N))
    (hbnd : ∀ x ∈ es, x.2.1 < d) :
    ∀ (r p : List (Nat × Nat × N)) (st : List Nat × List Nat × List N),
      es = p ++ r → ScatterInv d es p st →
      ScatterInv d es es
        (r.foldl (fun (st : List Nat × List Nat × List N) e =>
          let dest := st.1.getD e.2.1 0
          (st.1.set e.2.1 (dest + 1), st.2.1.set dest e.1,
           st.2.2.set dest e.2.2)) st) := by
  intro r
  induction r with
  | nil =>
    intro p st hsplit hinv
    rw [List.append_nil] at hsplit
    subst hsplit
    exact hinv
  | cons e t ih =>
    intro p st hsplit hinv
    rw [List.foldl_cons]
    refine ih (p ++ [e]) _ (by rw [hsplit, List.append_assoc]; rfl) ?_
    exact scatter_step d es p t e hsplit hbnd st hinv

theorem other_outer_dimension (st : CompressedStorage) (r c : Nat) :
    outer_dimension st.other_storage r c = inner_dimension st r c := by
  cases st <;> rfl

theorem other_inner_dimension (st : CompressedStorage) (r c : Nat) :
    inner_dimension st.other_storage r c = outer_dimension st r c := by
  cases st <;> rfl

theorem entriesOI_inner_lt (m : CsMat N) (hso : structOk m) :
    ∀ x ∈ m.entriesOI, x.2.1 < m.inner_dims := by
  obtain ⟨hIlen, hch, hlast, hdlen, hslices⟩ := hso
  intro x hx
  unfold CsMat.entriesOI at hx
  rcases (mem_entriesFrom _ _ _).1 hx with ⟨k, w, hk, ho, hm⟩
  rw [outerVecs_eq_range m hIlen, List.getElem?_map] at hk
  by_cases hkd : k < m.outer_dims
  · rw [List.getElem?_range hkd, Option.map_some'] at hk
    injection hk with hk
    subst hk
    exact (hslices k hkd).2 x.2.1 (List.of_mem_zip hm).1
  · rw [List.getElem?_eq_none
      (by simpa using (by omega : m.outer_dims ≤ k))] at hk
    simp at hk

theorem entriesOI_outer_lt (m : CsMat N)
    (hIlen : m.indptr.length = m.outer_dims + 1) :
    ∀ x ∈ m.entriesOI, x.1 < m.outer_dims := by
  intro x hx
  unfold CsMat.entriesOI at hx
  rcases (mem_entriesFrom _ _ _).1 hx with ⟨k, w, hk, ho, hm⟩
  rw [outerVecs_eq_range m hIlen, List.getElem?_map] at hk
  by_cases hkd : k < m.outer_dims
  · rw [ho]
    omega
  · rw [List.getElem?_eq_none
      (by simpa using (by omega : m.outer_dims ≤ k))] at hk
    simp at hk

theorem bucket_mem {β : Type _} (j x : Nat) (v : β)
    (es : List (Nat × Nat × β)) :
    (x, v) ∈ bucket j es ↔ (x, j, v) ∈ es := by
  unfold bucket
  constructor
  · intro h
    rcases List.mem_map.1 h with ⟨e, hef, heq⟩
    obtain ⟨hees, hj⟩ := List.mem_filter.1 hef
    obtain ⟨a, b, c⟩ := e
    simp at hj heq
    obtain ⟨rfl, rfl⟩ := heq
    subst hj
    exact hees
  · intro h
    exact List.mem_map.2 ⟨(x, j, v), List.mem_filter.2 ⟨h, by simp⟩, rfl⟩

theorem getD_replicate_zero (n j : Nat) :
    (List.replicate n (0 : Nat)).getD j 0 = 0 := by
  rw [List.getD_eq_getElem?_getD, List.getElem?_replicate]
  split <;> rfl

theorem map_range_getD {n j : Nat} (f : Nat → Nat) (h : j < n) :
    ((List.range n).map f).getD j 0 = f j := by
  rw [List.getD_eq_getElem?_getD, List.getElem?_map, List.getElem?_range h,
    Option.map_some']
  rfl

theorem shiftBack_getD (l : List Nat) (hl : l ≠ []) :
    (shiftBackOffsets l).length = l.length ∧
    (shiftBackOffsets l).getD 0 0 = 0 ∧
    ∀ k, k + 1 < l.length →
      (shiftBackOffsets l).getD (k + 1) 0 = l.getD k 0 := by
  cases l with
  | nil => cases hl rfl
  | cons y ys =>
    refine ⟨?_, rfl, ?_⟩
    · show (0 :: (y :: ys).dropLast).length = (y :: ys).length
      simp
    · intro k hk
      show (0 :: (y :: ys).dropLast).getD (k + 1) 0 = _
      rw [List.getD_cons_succ, List.getD_eq_getElem?_getD,
        List.getElem?_dropLast, if_pos (by omega),
        ← List.getD_eq_getElem?_getD]

/-- Everything the claims need about the matrix assembled from a finished
scatter state: it is structurally sound, its offsets start at 0, nnz is
preserved, and its nonzeros are exactly the input's with outer and inner
coordinates exchanged. -/
theorem converted_props {N : Type} (m : CsMat N) (hso : structOk m)
    (h0 : m.indptr.getD 0 0 = 0)
    (st : List Nat × List Nat × List N)
    (hinv : ScatterInv m.inner_dims m.entriesOI m.entriesOI st) :
    structOk (⟨m.storage.other_storage, m.nrows, m.ncols,
      shiftBackOffsets st.1, st.2.1, st.2.2⟩ : CsMat N) ∧
    (shiftBackOffsets st.1).getD 0 0 = 0 ∧
    (⟨m.storage.other_storage, m.nrows, m.ncols,
      shiftBackOffsets st.1, st.2.1, st.2.2⟩ : CsMat N).nnz = m.nnz ∧
    ∀ j o v,
      (j, o, v) ∈ (⟨m.storage.other_storage, m.nrows, m.ncols,
        shiftBackOffsets st.1, st.2.1, st.2.2⟩ : CsMat N).entriesOI
      ↔ (o, j, v) ∈ m.entriesOI := by
  obtain ⟨hIlen, hch, hlast, hdlen, hslices⟩ := hso
  obtain ⟨hL1, hL2, hL3, hoff, hseg⟩ := hinv
  have hbnd : ∀ x ∈ m.entriesOI, x.2.1 < m.inner_dims :=
    entriesOI_inner_lt m ⟨hIlen, hch, hlast, hdlen, hslices⟩
  have houter := entriesOI_outer_lt m hIlen
  have hesl : m.entriesOI.length = m.indices.length := by
    rw [entriesOI_length m hIlen hch hlast hdlen, h0]
    omega
  have hnnz_len : m.nnz = m.indices.length := by
    unfold CsMat.nnz
    rw [hlast]
  have hst1ne : st.1 ≠ [] := by
    intro hc
    rw [hc] at hL1
    simp at hL1
  obtain ⟨hsblen, hsb0, hsbk⟩ := shiftBack_getD st.1 hst1ne
  have hoff' : ∀ j, j ≤ m.inner_dims →
      st.1.getD j 0 = startOf (j + 1) m.entriesOI := by
    intro j hj
    rw [hoff j hj, startOf_succ, bucket_length_countP]
  have hgdP : ∀ t, t ≤ m.inner_dims →
      (shiftBackOffsets st.1).getD t 0 = startOf t m.entriesOI := by
    intro t ht
    cases t with
    | zero =>
      rw [hsb0]
      simp [startOf]
    | succ k => rw [hsbk k (by omega), hoff' k (by omega)]
  have hstot : startOf m.inner_dims m.entriesOI = m.entriesOI.length :=
    startOf_total _ _ hbnd
  have hseg' : ∀ j, j < m.inner_dims →
      sliceRange st.2.1 (startOf j m.entriesOI) (startOf (j + 1) m.entriesOI)
        = (bucket j m.entriesOI).map Prod.fst ∧
      sliceRange st.2.2 (startOf j m.entriesOI) (startOf (j + 1) m.entriesOI)
        = (bucket j m.entriesOI).map Prod.snd := by
    intro j hj
    rw [startOf_succ, bucket_length_countP]
    exact hseg j hj
  have hod' : (⟨m.storage.other_storage, m.nrows, m.ncols,
      shiftBackOffsets st.1, st.2.1, st.2.2⟩ : CsMat N).outer_dims
      = m.inner_dims := other_outer_dimension m.storage m.nrows m.ncols
  have hid' : (⟨m.storage.other_storage, m.nrows, m.ncols,
      shiftBackOffsets st.1, st.2.1, st.2.2⟩ : CsMat N).inner_dims
      = m.outer_dims := other_inner_dimension m.storage m.nrows m.ncols
  have hIlen' : (⟨m.storage.other_storage, m.nrows, m.ncols,
      shiftBackOffsets st.1, st.2.1, st.2.2⟩ : CsMat N).indptr.length
      = (⟨m.storage.other_storage, m.nrows, m.ncols,
        shiftBackOffsets st.1, st.2.1, st.2.2⟩ : CsMat N).outer_dims + 1 := by
    show (shiftBackOffsets st.1).length = _
    rw [hsblen, hL1, hod']
  have hslI' : ∀ j, j < m.inner_dims →
      (⟨m.storage.other_storage, m.nrows, m.ncols,
        shiftBackOffsets st.1, st.2.1, st.2.2⟩ : CsMat N).sliceI j
      = (bucket j m.entriesOI).map Prod.fst := by
    intro j hj
    show sliceRange st.2.1 ((shiftBackOffsets st.1).getD j 0)
      ((shiftBackOffsets st.1).getD (j + 1) 0) = _
    rw [hgdP j (by omega), hgdP (j + 1) (by omega), (hseg' j hj).1]
  have hslD' : ∀ j, j < m.inner_dims →
      (⟨m.storage.other_storage, m.nrows, m.ncols,
        shiftBackOffsets st.1, st.2.1, st.2.2⟩ : CsMat N).sliceD j
      = (bucket j m.entriesOI).map Prod.snd := by
    intro j hj
    show sliceRange st.2.2 ((shiftBackOffsets st.1).getD j 0)
      ((shiftBackOffsets st.1).getD (j + 1) 0) = _
    rw [hgdP j (by omega), hgdP (j + 1) (by omega), (hseg' j hj).2]
  have hpairwise := entriesOI_pairwise m hIlen hslices
  have hvecs := outerVecs_eq_range (⟨m.storage.other_storage, m.nrows,
    m.ncols, shiftBackOffsets st.1, st.2.1, st.2.2⟩ : CsMat N) hIlen'
  refine ⟨⟨hIlen', ?_, ?_, ?_, ?_⟩, hsb0, ?_, ?_⟩
  · show List.Chain' (· ≤ ·) (shiftBackOffsets st.1)
    rw [chain'_le_iff_getD]
    intro k hk
    rw [hsblen, hL1] at hk
    rw [hgdP k (by omega), hgdP (k + 1) (by omega)]
    exact startOf_mono _ (by omega)
  · show (shiftBackOffsets st.1).getLast?.getD 0 = st.2.1.length
    rw [← getD_last_eq (shiftBackOffsets st.1) m.inner_dims
      (by rw [hsblen, hL1]), hgdP _ (Nat.le_refl _), hstot, hL2]
  · show st.2.2.length = st.2.1.length
    rw [hL3, hL2]
  · intro j hj
    rw [hod'] at hj
    rw [hslI' j hj, hid']
    constructor
    · exact List.chain'_iff_pairwise.2 (bucket_sorted hpairwise j)
    · intro x hx
      rcases List.mem_map.1 hx with ⟨pr, hpr, rfl⟩
      obtain ⟨a, b⟩ := pr
      exact houter (a, j, b) ((bucket_mem j a b m.entriesOI).1 hpr)
  · show (shiftBackOffsets st.1).getLast?.getD 0 = m.nnz
    rw [← getD_last_eq (shiftBackOffsets st.1) m.inner_dims
      (by rw [hsblen, hL1]), hgdP _ (Nat.le_refl _), hstot, hesl, hnnz_len]
  · intro j o v
    constructor
    · intro h
      unfold CsMat.entriesOI at h
      rcases (mem_entriesFrom _ _ _).1 h with ⟨k, w, hk, hj, hm⟩
      rw [hvecs, List.getElem?_map] at hk
      by_cases hkd : k < (⟨m.storage.other_storage, m.nrows, m.ncols,
          shiftBackOffsets st.1, st.2.1, st.2.2⟩ : CsMat N).outer_dims
      · rw [List.getElem?_range hkd, Option.map_some'] at hk
        injection hk with hk
        subst hk
        have hjk : j = k := by simpa using hj
        subst hjk
        have hkd2 : j < m.inner_dims := by
          rw [hod'] at hkd
          exact hkd
        have hz : (o, v) ∈ ((bucket j m.entriesOI).map Prod.fst).zip
            ((bucket j m.entriesOI).map Prod.snd) := by
          rw [← hslI' j hkd2, ← hslD' j hkd2]
          exact hm
        rw [zip_map_fst_snd] at hz
        exact (bucket_mem j o v m.entriesOI).1 hz
      · rw [List.getElem?_eq_none (by simpa using (by omega :
          (⟨m.storage.other_storage, m.nrows, m.ncols, shiftBackOffsets st.1,
            st.2.1, st.2.2⟩ : CsMat N).outer_dims ≤ k))] at hk
        simp at hk
    · intro h
      have hjd : j < m.inner_dims := hbnd (o, j, v) h
      unfold CsMat.entriesOI
      refine (mem_entriesFrom _ _ _).2 ⟨j,
        ⟨(⟨m.storage.other_storage, m.nrows, m.ncols, shiftBackOffsets st.1,
          st.2.1, st.2.2⟩ : CsMat N).inner_dims,
         (⟨m.storage.other_storage, m.nrows, m.ncols, shiftBackOffsets st.1,
          st.2.1, st.2.2⟩ : CsMat N).sliceI j,
         (⟨m.storage.other_storage, m.nrows, m.ncols, shiftBackOffsets st.1,
          st.2.1, st.2.2⟩ : CsMat N).sliceD j⟩, ?_, by simp, ?_⟩
      · rw [hvecs, List.getElem?_map,
          List.getElem?_range (by rw [hod']; exact hjd), Option.map_some']
      · show (o, v) ∈ ((⟨m.storage.other_storage, m.nrows, m.ncols,
          shiftBackOffsets st.1, st.2.1, st.2.2⟩ : CsMat N).sliceI j).zip
          ((⟨m.storage.other_storage, m.nrows, m.ncols, shiftBackOffsets st.1,
            st.2.1, st.2.2⟩ : CsMat N).sliceD j)
        rw [hslI' j hjd, hslD' j hjd, zip_map_fst_snd]
        exact (bucket_mem j o v m.entriesOI).2 h

/-- Full characterization of `to_other_storage` on a structurally sound
matrix whose offsets start at 0: the conversion succeeds and produces a
structurally sound matrix in the opposite storage with the same shape,
offsets again starting at 0, the same nonzero count, and exactly the
transposed nonzero set. -/
theorem to_other_storage_spec {N : Type} [Inhabited N] (m : CsMat N)
    (hso : structOk m) (h0 : m.indptr.getD 0 0 = 0) :
    ∃ m' : CsMat N, m.to_other_storage = some m' ∧
      m'.storage = m.storage.other_storage ∧
      m'.nrows = m.nrows ∧ m'.ncols = m.ncols ∧
      structOk m' ∧ m'.indptr.getD 0 0 = 0 ∧ m'.nnz = m.nnz ∧
      ∀ j o v, (j, o, v) ∈ m'.entriesOI ↔ (o, j, v) ∈ m.entriesOI := by
  obtain ⟨hIlen, hch, hlast, hdlen, hslices⟩ := hso
  have hbnd : ∀ x ∈ m.entriesOI, x.2.1 < m.inner_dims :=
    entriesOI_inner_lt m ⟨hIlen, hch, hlast, hdlen, hslices⟩
  have hesl : m.entriesOI.length = m.indices.length := by
    rw [entriesOI_length m hIlen hch hlast hdlen, h0]
    omega
  have hnnz_len : m.nnz = m.indices.length := by
    unfold CsMat.nnz
    rw [hlast]
  have hhist : m.entriesOI.foldl
      (fun ip e => ip.set e.2.1 (ip.getD e.2.1 0 + 1))
      (List.replicate (m.inner_dims + 1) 0)
      = (List.range (m.inner_dims + 1)).map fun k =>
          m.entriesOI.countP fun e => decide (e.2.1 = k) := by
    obtain ⟨hl, hp⟩ := histFold_spec m.entriesOI
      (List.replicate (m.inner_dims + 1) 0)
      (fun e he => by
        rw [List.length_replicate]
        exact Nat.lt_succ_of_lt (hbnd e he))
    refine list_eq_range_map (by rw [hl, List.length_replicate]) ?_
    intro k hk
    rw [hp k, getD_replicate_zero]
    omega
  have hinit : ScatterInv m.inner_dims m.entriesOI []
      ((List.range (m.inner_dims + 1)).map fun j => startOf j m.entriesOI,
       List.replicate m.nnz 0, List.replicate m.nnz (default : N)) := by
    refine ⟨by rw [List.length_map, List.length_range],
      by rw [List.length_replicate, hnnz_len, hesl],
      by rw [List.length_replicate, hnnz_len, hesl], ?_, ?_⟩
    · intro j hj
      rw [map_range_getD _ (by omega)]
      simp
    · intro j hj
      constructor
      · simp [sliceRange, bucket]
      · simp [sliceRange, bucket]
  have hinv := scatter_fold m.inner_dims m.entriesOI hbnd m.entriesOI []
    ((List.range (m.inner_dims + 1)).map fun j => startOf j m.entriesOI,
     List.replicate m.nnz 0, List.replicate m.nnz (default : N))
    rfl hinit
  have h5 : ((List.range (m.inner_dims + 1)).map fun j =>
      startOf j m.entriesOI).getLast?.getD m.nnz = m.nnz := by
    rw [List.range_succ, List.map_append,
      show List.map (fun j => startOf j m.entriesOI) [m.inner_dims]
        = [startOf m.inner_dims m.entriesOI] from rfl,
      List.getLast?_concat, Option.getD_some, startOf_total _ _ hbnd, hesl,
      hnnz_len]
  obtain ⟨hA, hB, hC, hD⟩ :=
    converted_props m ⟨hIlen, hch, hlast, hdlen, hslices⟩ h0 _ hinv
  refine ⟨_, ?_, ?_, ?_, ?_, hA, hB, hC, hD⟩
  · unfold CsMat.to_other_storage convert_mat_storage
    rw [if_neg (by simp), if_neg (by simp [hnnz_len]),
      if_neg (by simp [hnnz_len, hdlen]), if_neg (by simp)]
    dsimp only
    rw [hhist, scanned_eq, if_neg (fun hc => hc h5)]
    rfl
  · rfl
  · rfl
  · rfl

theorem other_other (st : CompressedStorage) :
    st.other_storage.other_storage = st := by
  cases st <;> rfl

theorem mem_entriesRC_iff (m : CsMat N) (r c : Nat) (v : N) :
    (r, c, v) ∈ m.entriesRC ↔
      (match m.storage with
       | CSR => ((r : Nat), (c : Nat), v)
       | CSC => (c, r, v)) ∈ m.entriesOI := by
  unfold CsMat.entriesRC
  cases hsm : m.storage with
  | CSR =>
    constructor
    · intro h
      rcases List.mem_map.1 h with ⟨x, hx, hxe⟩
      obtain ⟨a, b, d⟩ := x
      injection hxe with h1 h2
      injection h2 with h2 h3
      subst h1
      subst h2
      subst h3
      exact hx
    · intro h
      exact List.mem_map.2 ⟨(r, c, v), h, rfl⟩
  | CSC =>
    constructor
    · intro h
      rcases List.mem_map.1 h with ⟨x, hx, hxe⟩
      obtain ⟨a, b, d⟩ := x
      injection hxe with h1 h2
      injection h2 with h2 h3
      subst h1
      subst h2
      subst h3
      exact hx
    · intro h
      exact List.mem_map.2 ⟨(c, r, v), h, rfl⟩

/-- Claim C6: owned construction from triplet buffers with well-formed
offsets and arbitrarily ordered per-slice indices (no duplicate inside a
slice): the construction succeeds, returning the per-slice sorted matrix,
whose outer slices are all strictly ascending and in which every (index,
value) pair of the input is still paired — looking up any input index of a
slice returns the value that was supplied with it. -/
theorem C6_owned_construction_sorts {N : Type} (storage : CompressedStorage)
    (shape : Nat × Nat) (indptr indices : List Nat) (data : List N)
    (hOlen : indptr.length = outer_dimension storage shape.1 shape.2 + 1)
    (hh : indptr.head? = some 0)
    (hch : List.Chain' (· ≤ ·) indptr)
    (hlast : indptr.getLast?.getD 0 = indices.length)
    (hd : data.length = indices.length)
    (hover : indices.length ≤ usizeMax / 2)
    (hbound : ∀ i ∈ indices, i < inner_dimension storage shape.1 shape.2)
    (hnodup : ∀ o < outer_dimension storage shape.1 shape.2,
      (sliceRange indices (indptr.getD o 0)
        (indptr.getD (o + 1) 0)).Nodup) :
    CsMat.new_ storage shape indptr indices data
      = CheckResult.ok (CsMat.sort_indices
          ⟨storage, shape.1, shape.2, indptr, indices, data⟩) ∧
    (CsMat.sort_indices
        ⟨storage, shape.1, shape.2, indptr, indices, data⟩).indptr = indptr ∧
    (∀ o < outer_dimension storage shape.1 shape.2,
      List.Chain' (· < ·) ((CsMat.sort_indices
        ⟨storage, shape.1, shape.2, indptr, indices, data⟩).sliceI o)) ∧
    ∀ o < outer_dimension storage shape.1 shape.2,
      ∀ p ∈ (sliceRange indices (indptr.getD o 0) (indptr.getD (o + 1) 0)).zip
             (sliceRange data (indptr.getD o 0) (indptr.getD (o + 1) 0)),
        (CsMat.sort_indices
          ⟨storage, shape.1, shape.2, indptr, indices, data⟩).get_outer_inner
            o p.1 = some p.2 := by
  have hfold := sortFold_spec indptr.length indptr indices data rfl hch hh
    hlast hd.symm
  obtain ⟨hL1, hL2, hsl⟩ := hfold
  have hmsI : (CsMat.sort_indices
      (⟨storage, shape.1, shape.2, indptr, indices, data⟩ : CsMat N)).indices
      = ((windowsPairs indptr).foldl sortStep (indices, data)).1 := rfl
  have hmsD : (CsMat.sort_indices
      (⟨storage, shape.1, shape.2, indptr, indices, data⟩ : CsMat N)).data
      = ((windowsPairs indptr).foldl sortStep (indices, data)).2 := rfl
  -- per-slice facts
  have hsliceI : ∀ o < outer_dimension storage shape.1 shape.2,
      (CsMat.sort_indices
        (⟨storage, shape.1, shape.2, indptr, indices, data⟩ : CsMat N)).sliceI o
      = (((sliceRange indices (indptr.getD o 0) (indptr.getD (o + 1) 0)).zip
          (sliceRange data (indptr.getD o 0)
            (indptr.getD (o + 1) 0))).mergeSort
          fun a b => decide (a.1 ≤ b.1)).map Prod.fst := by
    intro o ho
    have := (hsl o (by omega)).1
    unfold CsMat.sliceI
    exact this
  have hsliceD : ∀ o < outer_dimension storage shape.1 shape.2,
      (CsMat.sort_indices
        (⟨storage, shape.1, shape.2, indptr, indices, data⟩ : CsMat N)).sliceD o
      = (((sliceRange indices (indptr.getD o 0) (indptr.getD (o + 1) 0)).zip
          (sliceRange data (indptr.getD o 0)
            (indptr.getD (o + 1) 0))).mergeSort
          fun a b => decide (a.1 ≤ b.1)).map Prod.snd := by
    intro o ho
    have := (hsl o (by omega)).2
    unfold CsMat.sliceD
    exact this
  have hslfst : ∀ o, ((sliceRange indices (indptr.getD o 0)
        (indptr.getD (o + 1) 0)).zip
      (sliceRange data (indptr.getD o 0) (indptr.getD (o + 1) 0))).map Prod.fst
      = sliceRange indices (indptr.getD o 0) (indptr.getD (o + 1) 0) := by
    intro o
    refine List.map_fst_zip _ _ ?_
    rw [sliceRange_length, sliceRange_length, hd]
  have hperm : ∀ o, ((((sliceRange indices (indptr.getD o 0)
        (indptr.getD (o + 1) 0)).zip (sliceRange data (indptr.getD o 0)
        (indptr.getD (o + 1) 0))).mergeSort
        fun a b => decide (a.1 ≤ b.1)).map Prod.fst).Perm
      (sliceRange indices (indptr.getD o 0) (indptr.getD (o + 1) 0)) := by
    intro o
    have := (mergeSort_pairs_perm (((sliceRange indices (indptr.getD o 0)
      (indptr.getD (o + 1) 0)).zip (sliceRange data (indptr.getD o 0)
      (indptr.getD (o + 1) 0))))).map Prod.fst
    rwa [hslfst o] at this
  have hsortedLt : ∀ o < outer_dimension storage shape.1 shape.2,
      List.Chain' (· < ·) ((CsMat.sort_indices
        (⟨storage, shape.1, shape.2, indptr, indices, data⟩ : CsMat N)).sliceI
          o) := by
    intro o ho
    rw [hsliceI o ho]
    rw [List.chain'_iff_pairwise]
    have hle : List.Pairwise (· ≤ ·)
        ((((sliceRange indices (indptr.getD o 0)
          (indptr.getD (o + 1) 0)).zip (sliceRange data (indptr.getD o 0)
          (indptr.getD (o + 1) 0))).mergeSort
          fun a b => decide (a.1 ≤ b.1)).map Prod.fst) :=
      List.pairwise_map.2 (mergeSort_pairs_sorted _)
    have hnd : ((((sliceRange indices (indptr.getD o 0)
        (indptr.getD (o + 1) 0)).zip (sliceRange data (indptr.getD o 0)
        (indptr.getD (o + 1) 0))).mergeSort
        fun a b => decide (a.1 ≤ b.1)).map Prod.fst).Nodup :=
      (hnodup o ho).perm (hperm o).symm
    exact (hle.and hnd).imp fun hab => Nat.lt_of_le_of_ne hab.1 hab.2
  have hbounds : ∀ o < outer_dimension storage shape.1 shape.2,
      ∀ i ∈ (CsMat.sort_indices
        (⟨storage, shape.1, shape.2, indptr, indices, data⟩ : CsMat N)).sliceI
          o, i < inner_dimension storage shape.1 shape.2 := by
    intro o ho i hi
    rw [hsliceI o ho] at hi
    exact hbound i (mem_of_mem_sliceRange ((hperm o).mem_iff.1 hi))
  -- the structure check passes on the sorted matrix
  have hpf : panicFree (CsMat.sort_indices
      (⟨storage, shape.1, shape.2, indptr, indices, data⟩ : CsMat N)) := by
    refine ⟨hOlen, ?_, ?_, fun x hx => ⟨?_, ?_⟩⟩
    · rw [hmsI, hmsD, hL1, hL2, hd]
    · rw [hmsI, hL1]
      exact hlast
    · rw [hmsI, hL1, ← hlast]
      exact chain'_mem_le_getLast hch hx
    · exact Nat.le_trans (by
        rw [← hlast]
        exact chain'_mem_le_getLast hch hx) hover
  have hviol : specSliceViol (CsMat.sort_indices
      (⟨storage, shape.1, shape.2, indptr, indices, data⟩ : CsMat N)) = none :=
    (specSliceViol_eq_none_iff _).2 fun o ho =>
      ⟨hsortedLt o ho, hbounds o ho⟩
  have hnew : CsMat.new_ storage shape indptr indices data
      = (match (CsMat.sort_indices
          (⟨storage, shape.1, shape.2, indptr, indices,
            data⟩ : CsMat N)).check_compressed_structure with
         | CheckResult.panicked => CheckResult.panicked
         | CheckResult.error e => CheckResult.error e
         | CheckResult.ok _ => CheckResult.ok (CsMat.sort_indices
             ⟨storage, shape.1, shape.2, indptr, indices, data⟩)) := rfl
  refine ⟨?_, rfl, hsortedLt, ?_⟩
  · rw [hnew, check_eq_spec, if_neg (not_not_intro hpf),
      if_neg (not_not_intro (show List.Chain' (· ≤ ·) (CsMat.sort_indices
        (⟨storage, shape.1, shape.2, indptr, indices,
          data⟩ : CsMat N)).indptr from hch)), hviol]
  · intro o ho p hp
    unfold CsMat.get_outer_inner CsMat.outer_view
    rw [if_pos (show o < (CsMat.sort_indices
      (⟨storage, shape.1, shape.2, indptr, indices,
        data⟩ : CsMat N)).outer_dims from ho)]
    rw [Option.some_bind]
    have hvecI : sliceRange (CsMat.sort_indices
        (⟨storage, shape.1, shape.2, indptr, indices, data⟩ : CsMat N)).indices
        ((CsMat.sort_indices (⟨storage, shape.1, shape.2, indptr, indices,
          data⟩ : CsMat N)).indptr.getD o 0)
        ((CsMat.sort_indices (⟨storage, shape.1, shape.2, indptr, indices,
          data⟩ : CsMat N)).indptr.getD (o + 1) 0)
        = (((sliceRange indices (indptr.getD o 0)
            (indptr.getD (o + 1) 0)).zip (sliceRange data (indptr.getD o 0)
            (indptr.getD (o + 1) 0))).mergeSort
            fun a b => decide (a.1 ≤ b.1)).map Prod.fst := hsliceI o ho
    have hvecD : sliceRange (CsMat.sort_indices
        (⟨storage, shape.1, shape.2, indptr, indices, data⟩ : CsMat N)).data
        ((CsMat.sort_indices (⟨storage, shape.1, shape.2, indptr, indices,
          data⟩ : CsMat N)).indptr.getD o 0)
        ((CsMat.sort_indices (⟨storage, shape.1, shape.2, indptr, indices,
          data⟩ : CsMat N)).indptr.getD (o + 1) 0)
        = (((sliceRange indices (indptr.getD o 0)
            (indptr.getD (o + 1) 0)).zip (sliceRange data (indptr.getD o 0)
            (indptr.getD (o + 1) 0))).mergeSort
            fun a b => decide (a.1 ≤ b.1)).map Prod.snd := hsliceD o ho
    rw [hvecI, hvecD]
    have hnd : ((((sliceRange indices (indptr.getD o 0)
        (indptr.getD (o + 1) 0)).zip (sliceRange data (indptr.getD o 0)
        (indptr.getD (o + 1) 0))).mergeSort
        fun a b => decide (a.1 ≤ b.1)).map Prod.fst).Nodup :=
      (hnodup o ho).perm (hperm o).symm
    refine CsVec_get_of_mem hnd ?_
    rw [zip_map_fst_snd]
    exact (mergeSort_pairs_perm _).mem_iff.2 hp

/-- Witness for C6: construction from a 2x3 CSR triplet set with the first
slice's indices supplied in descending order; the result is sorted and the
values follow their indices. -/
theorem C6_witness :
    CsMat.new_ CompressedStorage.CSR (2, 3) [0, 2, 3] [2, 0, 1]
        ([10, 20, 30] : List Int)
      = CheckResult.ok (CsMat.sort_indices
          ⟨CompressedStorage.CSR, 2, 3, [0, 2, 3], [2, 0, 1], [10, 20, 30]⟩) ∧
    (CsMat.sort_indices (⟨CompressedStorage.CSR, 2, 3, [0, 2, 3], [2, 0, 1],
        [10, 20, 30]⟩ : CsMat Int)).get_outer_inner 0 2 = some 10 := by
  have h := C6_owned_construction_sorts CompressedStorage.CSR (2, 3)
    [0, 2, 3] [2, 0, 1] ([10, 20, 30] : List Int)
    (by decide) (by decide) (by decide) (by decide) (by decide) (by decide)
    (by decide) (by decide)
  exact ⟨h.1, h.2.2.2 0 (by decide) (2, 10) (by decide)⟩

/-- Claim C7: on a structurally sound owned matrix, inserting `(r, c, v1)`
and then `(r, c, v2)` leaves `get r c = some v2`, and the nonzero count
after the second insert equals the count just before the second insert:
an insert at an already-present position overwrites in place. -/
theorem C7_insert_overwrite {N : Type} (m : CsMat N) (hso : structOk m)
    (r c : Nat) (v1 v2 : N) :
    ((m.insert r c v1).insert r c v2).get r c = some v2 ∧
    ((m.insert r c v1).insert r c v2).nnz = (m.insert r c v1).nnz := by
  obtain ⟨hso1, hst1, hod1, hid1, hmem1, hget1, hnnz1⟩ :=
    insert_outer_inner_char m hso (outer_dimension m.storage r c)
      (inner_dimension m.storage r c) v1
  obtain ⟨hso2, hst2, hod2, hid2, hmem2, hget2, hnnz2⟩ :=
    insert_outer_inner_char (m.insert_outer_inner
        (outer_dimension m.storage r c) (inner_dimension m.storage r c) v1)
      hso1 (outer_dimension m.storage r c) (inner_dimension m.storage r c) v2
  rw [insert_eq_oi m r c v1, insert_eq_oi _ r c v2, hst1]
  constructor
  · rw [get_eq_oi, hst2, hst1]
    exact hget2
  · rw [hnnz2, if_pos ⟨by rw [hod1]; omega, hmem1⟩]

/-- Witness for C7: overwriting the single entry of a 1x1 matrix. -/
theorem C7_witness :
    structOk (⟨CompressedStorage.CSR, 1, 1, [0, 0], [], []⟩ : CsMat Int) ∧
    ((((⟨CompressedStorage.CSR, 1, 1, [0, 0], [], []⟩ : CsMat Int).insert
        0 0 1).insert 0 0 2).get 0 0 = some 2 ∧
     (((⟨CompressedStorage.CSR, 1, 1, [0, 0], [], []⟩ : CsMat Int).insert
        0 0 1).insert 0 0 2).nnz
       = ((⟨CompressedStorage.CSR, 1, 1, [0, 0], [], []⟩ : CsMat Int).insert
        0 0 1).nnz) :=
  ⟨by decide, C7_insert_overwrite _ (by decide) 0 0 1 2⟩

/-- Claim C10: on a structurally sound owned matrix, `insert row col v`
whose storage-dispatched inner index is at least the current inner
dimension does not abort: the result is still structurally sound (offsets
monotonic, per-slice indices strictly ascending and below the new inner
dimension), the inner dimension silently grows to that inner index plus
one, and the entry is stored. -/
theorem C10_insert_grows_inner_dim {N : Type} (m : CsMat N)
    (hso : structOk m) (r c : Nat) (v : N)
    (hi : m.inner_dims ≤ inner_dimension m.storage r c) :
    structOk (m.insert r c v) ∧
    (m.insert r c v).inner_dims = inner_dimension m.storage r c + 1 ∧
    (m.insert r c v).get r c = some v := by
  obtain ⟨hso', hst', hod', hid', hmem', hget', hnnz'⟩ :=
    insert_outer_inner_char m hso (outer_dimension m.storage r c)
      (inner_dimension m.storage r c) v
  rw [insert_eq_oi]
  refine ⟨hso', ?_, ?_⟩
  · rw [hid']
    omega
  · rw [get_eq_oi, hst']
    exact hget'

/-- Witness for C10: inserting at column 5 of a 1x1 CSR matrix grows the
inner dimension (the column count) to 6 and stores the value. -/
theorem C10_witness :
    (structOk (⟨CompressedStorage.CSR, 1, 1, [0, 0], [], []⟩ : CsMat Int) ∧
     (⟨CompressedStorage.CSR, 1, 1, [0, 0], [], []⟩ : CsMat Int).inner_dims
       ≤ inner_dimension CompressedStorage.CSR 0 5) ∧
    structOk ((⟨CompressedStorage.CSR, 1, 1, [0, 0], [], []⟩
        : CsMat Int).insert 0 5 7) ∧
    ((⟨CompressedStorage.CSR, 1, 1, [0, 0], [], []⟩
        : CsMat Int).insert 0 5 7).inner_dims = 6 ∧
    ((⟨CompressedStorage.CSR, 1, 1, [0, 0], [], []⟩
        : CsMat Int).insert 0 5 7).get 0 5 = some 7 :=
  ⟨⟨by decide, by decide⟩,
   C10_insert_grows_inner_dim _ (by decide) 0 5 7 (by decide)⟩

/-- Claim C2 (amended: the matrix's first offset must be 0, which checked
construction does not enforce): converting a structurally sound matrix
whose offsets start at 0 to the opposite storage yields a matrix in the
other storage mode with the same row and column counts, `get` finds every
stored entry, nnz is preserved exactly, and every outer slice of the
result has strictly ascending inner indices without any subsequent
sort. -/
theorem C2_conversion_correct {N : Type} [Inhabited N] (m : CsMat N)
    (hso : structOk m) (h0 : m.indptr.getD 0 0 = 0) :
    ∃ m' : CsMat N, m.to_other_storage = some m' ∧
      m'.storage = m.storage.other_storage ∧
      m'.rows = m.rows ∧ m'.cols = m.cols ∧
      m'.nnz = m.nnz ∧
      (∀ e ∈ m.entriesRC, m'.get e.1 e.2.1 = some e.2.2) ∧
      ∀ j, j < m'.outer_dims → List.Chain' (· < ·) (m'.sliceI j) := by
  obtain ⟨m', hconv, hst, hr, hc, hso', h0', hnnz, hiff⟩ :=
    to_other_storage_spec m hso h0
  refine ⟨m', hconv, hst, hr, hc, hnnz, ?_, ?_⟩
  · intro e he
    obtain ⟨r, c, v⟩ := e
    rw [mem_entriesRC_iff] at he
    cases hsm : m.storage with
    | CSR =>
      rw [hsm] at he
      have hm' : (c, r, v) ∈ m'.entriesOI := (hiff c r v).2 he
      have hget' : m'.get_outer_inner c r = some v :=
        (mem_entriesOI_iff_get m' hso' c r v).1 hm'
      rw [get_eq_oi, show m'.storage = CompressedStorage.CSC by
        rw [hst, hsm]; rfl]
      exact hget'
    | CSC =>
      rw [hsm] at he
      have hm' : (r, c, v) ∈ m'.entriesOI := (hiff r c v).2 he
      have hget' : m'.get_outer_inner r c = some v :=
        (mem_entriesOI_iff_get m' hso' r c v).1 hm'
      rw [get_eq_oi, show m'.storage = CompressedStorage.CSR by
        rw [hst, hsm]; rfl]
      exact hget'
  · intro j hj
    exact (hso'.2.2.2.2 j hj).1

/-- Witness for C2: converting the 2x2 CSR identity. -/
theorem C2_witness :
    (structOk (CsMat.eye 2 : CsMat Int) ∧
     (CsMat.eye 2 : CsMat Int).indptr.getD 0 0 = 0) ∧
    ∃ m' : CsMat Int, (CsMat.eye 2 : CsMat Int).to_other_storage = some m' ∧
      m'.storage = (CsMat.eye 2 : CsMat Int).storage.other_storage ∧
      m'.rows = (CsMat.eye 2 : CsMat Int).rows ∧
      m'.cols = (CsMat.eye 2 : CsMat Int).cols ∧
      m'.nnz = (CsMat.eye 2 : CsMat Int).nnz ∧
      (∀ e ∈ (CsMat.eye 2 : CsMat Int).entriesRC,
        m'.get e.1 e.2.1 = some e.2.2) ∧
      ∀ j, j < m'.outer_dims → List.Chain' (· < ·) (m'.sliceI j) :=
  ⟨⟨by decide, by decide⟩, C2_conversion_correct _ (by decide) (by decide)⟩

/-- Counterexample to C2 as stated: this 1x6 CSR matrix passes every
structural invariant the checked constructors enforce (its offsets are
[1, 1], which no check forbids), yet converting it aborts on the
`assert_eq!(last_iptr, nnz)` of the counting sort, because the entry
before `indptr[0]` belongs to no outer slice. -/
theorem C2_counterexample :
    specValid (⟨CompressedStorage.CSR, 1, 6, [1, 1], [5], [7]⟩ : CsMat Int) ∧
    (⟨CompressedStorage.CSR, 1, 6, [1, 1], [5], [7]⟩
        : CsMat Int).to_other_storage = none := by
  decide

/-- Claim C5 (amended with the same first-offset-0 requirement as C2):
converting to the opposite storage and back yields a matrix of the same
shape and storage whose logical nonzero set is exactly the original's. -/
theorem C5_round_trip {N : Type} [Inhabited N] (m : CsMat N)
    (hso : structOk m) (h0 : m.indptr.getD 0 0 = 0) :
    ∃ m' m'' : CsMat N, m.to_other_storage = some m' ∧
      m'.to_other_storage = some m'' ∧
      m''.storage = m.storage ∧ m''.rows = m.rows ∧ m''.cols = m.cols ∧
      ∀ r c v, ((r, c, v) ∈ m''.entriesRC ↔ (r, c, v) ∈ m.entriesRC) := by
  obtain ⟨m', h1, hst1, hr1, hc1, hso1, h01, hnnz1, hiff1⟩ :=
    to_other_storage_spec m hso h0
  obtain ⟨m'', h2, hst2, hr2, hc2, hso2, h02, hnnz2, hiff2⟩ :=
    to_other_storage_spec m' hso1 h01
  have hstor : m''.storage = m.storage := by
    rw [hst2, hst1, other_other]
  refine ⟨m', m'', h1, h2, hstor, ?_, ?_, ?_⟩
  · show m''.nrows = m.nrows
    rw [hr2, hr1]
  · show m''.ncols = m.ncols
    rw [hc2, hc1]
  · intro r c v
    rw [mem_entriesRC_iff, mem_entriesRC_iff, hstor]
    cases hsm : m.storage with
    | CSR =>
      show (r, c, v) ∈ m''.entriesOI ↔ (r, c, v) ∈ m.entriesOI
      rw [hiff2 r c v, hiff1 c r v]
    | CSC =>
      show (c, r, v) ∈ m''.entriesOI ↔ (c, r, v) ∈ m.entriesOI
      rw [hiff2 c r v, hiff1 r c v]

/-- Witness for C5: round-tripping the 2x2 CSC identity. -/
theorem C5_witness :
    (structOk (CsMat.eye_csc 2 : CsMat Int) ∧
     (CsMat.eye_csc 2 : CsMat Int).indptr.getD 0 0 = 0) ∧
    ∃ m' m'' : CsMat Int,
      (CsMat.eye_csc 2 : CsMat Int).to_other_storage = some m' ∧
      m'.to_other_storage = some m'' ∧
      m''.storage = (CsMat.eye_csc 2 : CsMat Int).storage ∧
      m''.rows = (CsMat.eye_csc 2 : CsMat Int).rows ∧
      m''.cols = (CsMat.eye_csc 2 : CsMat Int).cols ∧
      ∀ r c v, ((r, c, v) ∈ m''.entriesRC ↔
        (r, c, v) ∈ (CsMat.eye_csc 2 : CsMat Int).entriesRC) :=
  ⟨⟨by decide, by decide⟩, C5_round_trip _ (by decide) (by decide)⟩

/-- Counterexample to C5 as stated: this 2x1 CSC matrix passes every
structural invariant yet the first conversion of the round trip aborts,
again because its offsets start at 1 instead of 0. -/
theorem C5_counterexample :
    specValid (⟨CompressedStorage.CSC, 2, 1, [1, 1], [0], [7]⟩ : CsMat Int) ∧
    (⟨CompressedStorage.CSC, 2, 1, [1, 1], [0], [7]⟩
        : CsMat Int).to_other_storage = none := by
  decide

/-- Claim C3: blocked outer iteration over the 6x6 identity with block
size 3 (a block size that divides the outer dimension evenly) yields the
two full blocks and then, instead of terminating, the third call reaches
`middle_outer_views` with `count = 0` and aborts (the `count == 0` panic),
so the spec's claim that the iterator terminates after covering all outer
indices fails exactly in the evenly-dividing case. -/
theorem C3_blocked_iteration_aborts_on_even_division :
    ((CsMat.eye 6 : CsMat Int).outer_block_iter 3).next
      = IterStep.yielded
          ⟨CompressedStorage.CSR, 3, 6, [0, 1, 2, 3], [0, 1, 2, 3, 4, 5],
            [1, 1, 1, 1, 1, 1]⟩
          ⟨CsMat.eye 6, 3, 1⟩ ∧
    (⟨CsMat.eye 6, 3, 1⟩ : ChunkOuterBlocks Int).next
      = IterStep.yielded
          ⟨CompressedStorage.CSR, 3, 6, [3, 4, 5, 6], [0, 1, 2, 3, 4, 5],
            [1, 1, 1, 1, 1, 1]⟩
          ⟨CsMat.eye 6, 3, 2⟩ ∧
    (⟨CsMat.eye 6, 3, 2⟩ : ChunkOuterBlocks Int).next
      = IterStep.panicked := by
  decide

/-- Claim C4: on a column-major matrix `middle_outer_views` writes the
block's outer-slice count into the row count and keeps the full column
count, so for the 2x2 CSC identity the one-slice view reports an outer
dimension of 2 (not the requested count 1) and an inner dimension of 1
(not the source's inner dimension 2). -/
theorem C4_middle_outer_views_wrong_dims_on_csc :
    (CsMat.eye_csc 2 : CsMat Int).middle_outer_views 0 1
      = some ⟨CompressedStorage.CSC, 1, 2, [0, 1], [0, 1], [1, 1]⟩ ∧
    (⟨CompressedStorage.CSC, 1, 2, [0, 1], [0, 1], [1, 1]⟩
        : CsMat Int).outer_dims = 2 ∧
    (⟨CompressedStorage.CSC, 1, 2, [0, 1], [0, 1], [1, 1]⟩
        : CsMat Int).inner_dims = 1 ∧
    (CsMat.eye_csc 2 : CsMat Int).inner_dims = 2 := by
  decide

/-- Claim C8: `set` reads the slice-relative position returned by the
per-slice binary search but writes at that position in the full data
buffer: setting the stored entry (1, 1) of the 2x2 identity to 5
overwrites `data[0]` instead of `data[1]`, after which `get 1 1` still
returns the old value 1 while `get 0 0` returns 5. -/
theorem C8_set_writes_wrong_position :
    (CsMat.eye 2 : CsMat Int).set 1 1 5
      = some ⟨CompressedStorage.CSR, 2, 2, [0, 1, 2], [0, 1], [5, 1]⟩ ∧
    (⟨CompressedStorage.CSR, 2, 2, [0, 1, 2], [0, 1], [5, 1]⟩
        : CsMat Int).get 1 1 = some 1 ∧
    (⟨CompressedStorage.CSR, 2, 2, [0, 1, 2], [0, 1], [5, 1]⟩
        : CsMat Int).get 0 0 = some 5 := by
  decide

end Sprs
